import Mathlib

/-!
Shallow embedding of the youtube-ingest pipeline core, translated from the
TypeScript sources, together with theorems settling the frozen claims.

Conventions used throughout:
* JavaScript numbers that hold fractional data (confidences, percentages,
  engagement scores) are modelled as rationals; timestamps are epoch
  milliseconds modelled as integers.  RFC-3339 timestamp strings of a fixed
  format compare lexicographically exactly as their instants compare, so the
  string comparisons of the source become integer comparisons here.
* Nullable / optional JavaScript values become Option.
* Awaited external calls (the YouTube API, the database) are passed in as
  explicit environment data; a call that can throw is modelled with Except
  or with an explicit outcome type.
-/

namespace YTI

/-! ## Generic list helpers -/

/-- Append a tag unless already present: models adding to a JS Set that is
later read back in insertion order. -/
def addTag (tags : List String) (t : String) : List String :=
  if t ∈ tags then tags else tags ++ [t]

/-- First-occurrence deduplication with a seen accumulator. -/
def dedupFirstAux {α : Type} [DecidableEq α] (seen : List α) : List α → List α
  | [] => []
  | a :: l => if a ∈ seen then dedupFirstAux seen l else a :: dedupFirstAux (a :: seen) l

/-- Models Array.from(new Set(l)) : keeps the first occurrence of each
element, in order. -/
def dedupFirst {α : Type} [DecidableEq α] (l : List α) : List α :=
  dedupFirstAux [] l

/-- Insert into a list that is (assumed) sorted by the boolean test. -/
def insertPos {α : Type} (le : α → α → Bool) (a : α) : List α → List α
  | [] => [a]
  | b :: l => if le a b then a :: b :: l else b :: insertPos le a l

/-- Insertion sort by a boolean comparison; models an SQL ORDER BY with a
total comparison. -/
def orderBy {α : Type} (le : α → α → Bool) (l : List α) : List α :=
  l.foldr (insertPos le) []

theorem mem_insertPos {α : Type} (le : α → α → Bool) (a x : α) (l : List α) :
    x ∈ insertPos le a l ↔ x = a ∨ x ∈ l := by
  induction l with
  | nil => simp [insertPos]
  | cons b l ih =>
    by_cases h : le a b = true
    · simp [insertPos, h]
    · simp only [insertPos, h, Bool.false_eq_true, if_false, List.mem_cons, ih]
      tauto

theorem mem_orderBy {α : Type} (le : α → α → Bool) (x : α) (l : List α) :
    x ∈ orderBy le l ↔ x ∈ l := by
  induction l with
  | nil => simp [orderBy]
  | cons b l ih =>
    simp only [orderBy, List.foldr_cons, List.mem_cons]
    rw [mem_insertPos]
    simp only [orderBy] at ih
    rw [ih]

theorem length_insertPos {α : Type} (le : α → α → Bool) (a : α) (l : List α) :
    (insertPos le a l).length = l.length + 1 := by
  induction l with
  | nil => simp [insertPos]
  | cons b l ih =>
    by_cases h : le a b = true
    · simp [insertPos, h]
    · simp [insertPos, h, ih]

theorem length_orderBy {α : Type} (le : α → α → Bool) (l : List α) :
    (orderBy le l).length = l.length := by
  induction l with
  | nil => rfl
  | cons b l ih => simp [orderBy, length_insertPos] at ih ⊢; exact ih

theorem perm_orderBy {α : Type} (le : α → α → Bool) (l : List α) :
    List.Perm (orderBy le l) l := by
  induction l with
  | nil => simp [orderBy]
  | cons b l ih =>
    simp only [orderBy, List.foldr_cons]
    have hins : ∀ (a : α) (m : List α), List.Perm (insertPos le a m) (a :: m) := by
      intro a m
      induction m with
      | nil => simp [insertPos]
      | cons c m ihm =>
        by_cases h : le a c = true
        · simp [insertPos, h]
        · simp only [insertPos, h, Bool.false_eq_true, if_false]
          exact (List.Perm.cons c ihm).trans (List.Perm.swap a c m)
    exact (hins b (orderBy le l)).trans (List.Perm.cons b ih)

theorem sorted_insertPos {α : Type} (le : α → α → Bool)
    (htot : ∀ a b, le a b = true ∨ le b a = true)
    (htrans : ∀ a b c, le a b = true → le b c = true → le a c = true)
    (a : α) (l : List α) (hl : l.Pairwise (fun x y => le x y = true)) :
    (insertPos le a l).Pairwise (fun x y => le x y = true) := by
  induction l with
  | nil => simp [insertPos]
  | cons b l ih =>
    rcases List.pairwise_cons.mp hl with ⟨hb, hl'⟩
    by_cases h : le a b = true
    · simp only [insertPos, h, if_true]
      refine List.pairwise_cons.mpr ⟨?_, hl⟩
      intro y hy
      rcases List.mem_cons.mp hy with rfl | hy'
      · exact h
      · exact htrans a b y h (hb y hy')
    · have hba : le b a = true := (htot a b).resolve_left h
      simp only [insertPos, h, Bool.false_eq_true, if_false]
      refine List.pairwise_cons.mpr ⟨?_, ih hl'⟩
      intro y hy
      rcases (mem_insertPos le a y l).mp hy with rfl | hy'
      · exact hba
      · exact hb y hy'

theorem sorted_orderBy {α : Type} (le : α → α → Bool)
    (htot : ∀ a b, le a b = true ∨ le b a = true)
    (htrans : ∀ a b c, le a b = true → le b c = true → le a c = true)
    (l : List α) :
    (orderBy le l).Pairwise (fun x y => le x y = true) := by
  induction l with
  | nil => simp [orderBy]
  | cons b l ih => exact sorted_insertPos le htot htrans b _ ih

/-- Counting version of a strict filter inclusion: if every p-element is a
q-element and some list member is q but not p, strictly fewer elements
satisfy p. -/
theorem countP_lt_of_strict {α : Type} (p q : α → Bool) (l : List α)
    (hsub : ∀ a ∈ l, p a = true → q a = true)
    (x : α) (hx : x ∈ l) (hqx : q x = true) (hpx : p x = false) :
    l.countP p < l.countP q := by
  induction l with
  | nil => cases hx
  | cons b l ih =>
    have hsub' : ∀ a ∈ l, p a = true → q a = true := fun a ha => hsub a (List.mem_cons_of_mem b ha)
    rcases List.mem_cons.mp hx with rfl | hx'
    · -- the witness is the head
      have hcount : l.countP p ≤ l.countP q := List.countP_mono_left hsub'
      simp [List.countP_cons, hqx, hpx]
      omega
    · have hlt := ih hsub' hx'
      by_cases hb : p b = true
      · have hqb : q b = true := hsub b (List.mem_cons_self b l) hb
        simp [List.countP_cons, hb, hqb]
        omega
      · have hb' : p b = false := by simpa using hb
        by_cases hqb : q b = true <;> simp [List.countP_cons, hb', hqb] <;> omega

theorem mem_dedupFirstAux {α : Type} [DecidableEq α] (seen : List α) (l : List α) (x : α) :
    x ∈ dedupFirstAux seen l ↔ x ∈ l ∧ x ∉ seen := by
  induction l generalizing seen with
  | nil => simp [dedupFirstAux]
  | cons a l ih =>
    by_cases h : a ∈ seen
    · simp only [dedupFirstAux, h, if_true, ih, List.mem_cons]
      constructor
      · rintro ⟨hx, hs⟩; exact ⟨Or.inr hx, hs⟩
      · rintro ⟨hx | hx, hs⟩
        · exact absurd h (hx ▸ hs)
        · exact ⟨hx, hs⟩
    · simp only [dedupFirstAux, h, if_false, List.mem_cons, ih]
      by_cases hxa : x = a
      · subst hxa
        simp [h]
      · simp only [hxa, false_or]

theorem mem_dedupFirst {α : Type} [DecidableEq α] (l : List α) (x : α) :
    x ∈ dedupFirst l ↔ x ∈ l := by
  simp [dedupFirst, mem_dedupFirstAux]

theorem mem_addTag (tags : List String) (t x : String) :
    x ∈ addTag tags t ↔ x ∈ tags ∨ x = t := by
  by_cases h : t ∈ tags
  · simp only [addTag, h, if_true]
    constructor
    · exact Or.inl
    · rintro (hx | rfl) <;> assumption
  · simp [addTag, h]

/-! ## src/common/vision-post.util.ts -/

/-- VisionRawBox: one raw object detection. Confidence and box coordinates
are JS numbers, modelled as rationals. -/
structure VisionRawBox where
  name : String
  conf : ℚ
  x : ℚ
  y : ℚ
  w : ℚ
  h : ℚ
deriving DecidableEq, Repr

/-- One palette entry: css hex string plus prevalence fraction. -/
structure PaletteEntry where
  hex : String
  pct : ℚ
deriving DecidableEq, Repr

/-- faces.largest of the payload (areaPct optional). -/
structure VisionLargestFace where
  areaPct : Option ℚ
deriving DecidableEq, Repr

/-- faces of the payload (boxes are never inspected and are omitted). -/
structure VisionFaces where
  count : ℚ
  largest : Option VisionLargestFace
deriving DecidableEq, Repr

/-- objects of the payload: tags plus optional raw detections. -/
structure VisionObjects where
  tags : List String
  raw : Option (List VisionRawBox)
deriving DecidableEq, Repr

/-- imageSize of the payload. -/
structure ImageSize where
  width : ℚ
  height : ℚ
deriving DecidableEq, Repr

/-- VisionPayload of vision-post.util.ts. -/
structure VisionPayload where
  faces : Option VisionFaces := none
  objects : Option VisionObjects := none
  palette : Option (List PaletteEntry) := none
  contrast : Option ℚ := none
  imageSize : Option ImageSize := none
deriving DecidableEq, Repr

/-- Optional hints argument of refineVision. -/
structure RefineHints where
  title : Option String := none
  ocrText : Option String := none
deriving DecidableEq, Repr

/-- width = v.imageSize?.width ?? 1. -/
def visionWidth (v : VisionPayload) : ℚ :=
  match v.imageSize with
  | some s => s.width
  | none => 1

/-- height = v.imageSize?.height ?? 1. -/
def visionHeight (v : VisionPayload) : ℚ :=
  match v.imageSize with
  | some s => s.height
  | none => 1

/-- imgArea = width * height. -/
def imgArea (v : VisionPayload) : ℚ :=
  visionWidth v * visionHeight v

/-- v.objects?.raw ?? []. -/
def objectsRawOf (v : VisionPayload) : List VisionRawBox :=
  match v.objects with
  | some o => o.raw.getD []
  | none => []

/-- v.objects?.tags ?? []. -/
def objectsTagsOf (v : VisionPayload) : List String :=
  match v.objects with
  | some o => o.tags
  | none => []

/-- The raw-detection filter: conf >= MIN_CONF (0.5) and
(w*h)/imgArea >= MIN_AREA_PCT (0.002). -/
def rawKeep (v : VisionPayload) (r : VisionRawBox) : Bool :=
  decide ((0.5 : ℚ) ≤ r.conf) && decide ((0.002 : ℚ) ≤ r.w * r.h / imgArea v)

/-- The filtered raw detections kept by refineVision. -/
def filteredRaw (v : VisionPayload) : List VisionRawBox :=
  (objectsRawOf v).filter (rawKeep v)

/-- veh = the vehicle class names unioned into the coarse tag. -/
def vehicleNames : List String :=
  ["car", "bus", "truck", "motorcycle", "train"]

/-- raw.some((r) => veh.includes(r.name)). -/
def vehicleCond (v : VisionPayload) : Bool :=
  (filteredRaw v).any (fun r => vehicleNames.contains r.name)

/-- names.has("person") where names is the set of filtered raw names. -/
def personCond (v : VisionPayload) : Bool :=
  ((filteredRaw v).map VisionRawBox.name).contains "person"

/-- faceCount = v.faces?.count ?? 0. -/
def faceCountOf (v : VisionPayload) : ℚ :=
  match v.faces with
  | some f => f.count
  | none => 0

/-- largestPct = v.faces?.largest?.areaPct ?? 0. -/
def largestPctOf (v : VisionPayload) : ℚ :=
  match v.faces with
  | some f =>
    match f.largest with
    | some lf => lf.areaPct.getD 0
    | none => 0
  | none => 0

/-- faceCount > 0 && largestPct >= 0.08. -/
def portraitCond (v : VisionPayload) : Bool :=
  decide ((0 : ℚ) < faceCountOf v) && decide ((0.08 : ℚ) ≤ largestPctOf v)

/-- JS word character for the regex boundary \b : [A-Za-z0-9_]. -/
def isWordChar (c : Char) : Bool :=
  c.isAlphanum || c == '_'

/-- The monetary keywords of the second money regex (input is uppercased). -/
def moneyKeywords : List String :=
  ["MONEY", "CASH", "MILLION", "BILLION", "USD", "EUR", "GBP"]

/-- Word boundary after a keyword: end of input or a non-word character. -/
def afterBoundary : List Char → Bool
  | [] => true
  | c :: _ => !isWordChar c

/-- The keyword (all word characters) matches here with \b on both sides;
prevWord says whether the character before this position is a word
character. -/
def boundedHere (kw : List Char) (prevWord : Bool) (l : List Char) : Bool :=
  !prevWord && kw.isPrefixOf l && afterBoundary (l.drop kw.length)

/-- Scans for a word-bounded occurrence of the keyword. -/
def occursBounded (kw : List Char) (prevWord : Bool) : List Char → Bool
  | [] => false
  | c :: rest => boundedHere kw prevWord (c :: rest) || occursBounded kw (isWordChar c) rest

/-- Characters the amount tail [\d,\.]* may consume. -/
def isAmountTailChar (c : Char) : Bool :=
  c.isDigit || c == ',' || c == '.'

/-- After the mandatory digit of the amount alternative, the regex engine
may consume any number of tail characters and must then find a word
boundary; lastWord is the wordness of the last consumed character. -/
def amountBoundary (lastWord : Bool) : List Char → Bool
  | [] => lastWord
  | c :: rest =>
    (lastWord != isWordChar c) || (isAmountTailChar c && amountBoundary (isWordChar c) rest)

/-- The mandatory digit of the amount alternative, then its tail. -/
def amountDigit : List Char → Bool
  | [] => false
  | d :: rest => d.isDigit && amountBoundary true rest

/-- The amount alternative of the money regex starting at this position:
a currency symbol, an optional single whitespace, a digit, a tail. -/
def amountHere : List Char → Bool
  | [] => false
  | c :: rest =>
    (c == '$' || c == '€' || c == '£') &&
      (amountDigit rest ||
        (match rest with
         | s :: r2 => s.isWhitespace && amountDigit r2
         | [] => false))

/-- Scans for the amount alternative; the \b before the (non-word) currency
symbol forces the preceding character to be a word character. -/
def amountOccurs (prevWord : Bool) : List Char → Bool
  | [] => false
  | c :: rest => (prevWord && amountHere (c :: rest)) || amountOccurs (isWordChar c) rest

/-- The first money regex: a currency symbol anywhere. -/
def hasCurrencySymbol (l : List Char) : Bool :=
  l.any (fun c => c == '$' || c == '€' || c == '£')

/-- The second money regex (word-bounded keywords or a currency amount). -/
def moneyKeywordRegex (l : List Char) : Bool :=
  moneyKeywords.any (fun kw => occursBounded kw.data false l) || amountOccurs false l

/-- The uppercased concatenation of title and OCR text that the money
regexes run on (all match-relevant characters are ASCII, so String.toUpper
coincides with the JS toUpperCase on them). -/
def moneyText (hints : Option RefineHints) : String :=
  let title := match hints with
    | some h => h.title.getD ""
    | none => ""
  let ocrText := match hints with
    | some h => h.ocrText.getD ""
    | none => ""
  (title ++ " " ++ ocrText).toUpper

/-- The combined money test of refineVision. -/
def moneyCond (hints : Option RefineHints) : Bool :=
  hasCurrencySymbol (moneyText hints).data || moneyKeywordRegex (moneyText hints).data

/-- hex.replace("#", "") : JS replace with a string pattern removes only
the first occurrence. -/
def dropFirstHash : List Char → List Char
  | [] => []
  | c :: r => if c == '#' then r else c :: dropFirstHash r

/-- Value of one hexadecimal digit. -/
def hexDigitVal (c : Char) : Option ℕ :=
  if c.isDigit then some (c.toNat - 48)
  else if 97 ≤ c.toNat ∧ c.toNat ≤ 102 then some (c.toNat - 97 + 10)
  else if 65 ≤ c.toNat ∧ c.toNat ≤ 70 then some (c.toNat - 65 + 10)
  else none

/-- Greedy run of hexadecimal digits, stopping at the first non-digit. -/
def hexGreedy (acc : ℕ) : List Char → ℕ
  | [] => acc
  | c :: rest =>
    match hexDigitVal c with
    | some d => hexGreedy (acc * 16 + d) rest
    | none => acc

/-- An optional 0x / 0X prefix is stripped by JS parseInt with radix 16. -/
def stripHexPrefix : List Char → List Char
  | '0' :: c :: rest => if c == 'x' || c == 'X' then rest else '0' :: c :: rest
  | l => l

/-- Models JS parseInt(s, 16) on the two-character slices the warm check
feeds it: none models NaN (no digit parsed), and every comparison against
NaN is false. -/
def jsParseHex (l : List Char) : Option ℕ :=
  match stripHexPrefix l with
  | [] => none
  | c :: rest =>
    match hexDigitVal c with
    | some d => some (hexGreedy d rest)
    | none => none

/-- The warm-palette check of one entry: parses r, g, b from the hex and
requires r > 180, g > 80, b < 100, r > g, g > b, and pct >= 0.12. -/
def isWarmEntry (p : PaletteEntry) : Bool :=
  let hex := dropFirstHash p.hex.data
  if hex.length = 6 then
    match jsParseHex (hex.take 2), jsParseHex ((hex.drop 2).take 2),
        jsParseHex ((hex.drop 4).take 2) with
    | some r, some g, some b =>
      decide (180 < r) && decide (80 < g) && decide (b < 100) &&
        decide (g < r) && decide (b < g) && decide ((0.12 : ℚ) ≤ p.pct)
    | _, _, _ => false
  else false

/-- warmTop && (v.contrast ?? 0) >= 0.18. -/
def fireCond (v : VisionPayload) : Bool :=
  ((v.palette.getD []).any isWarmEntry) && decide ((0.18 : ℚ) ≤ v.contrast.getD 0)

/-- The tag list built by refineVision: the deduplicated incoming tags (a
JS Set read back in insertion order) followed by the conditional coarse
tags, in program order. -/
def refinedTags (v : VisionPayload) (hints : Option RefineHints) : List String :=
  let tags1 := dedupFirst (objectsTagsOf v)
  let tags2 := if vehicleCond v then addTag tags1 "car" else tags1
  let tags3 := if personCond v then addTag tags2 "person" else tags2
  let tags4 := if portraitCond v then addTag tags3 "portrait" else tags3
  let tags5 := if moneyCond hints then addTag tags4 "money" else tags4
  if fireCond v then addTag tags5 "fire" else tags5

/-- Output of refineVision. The three *_json fields keep the data that the
source serializes to JSON; csv* are the convenience exports. -/
structure RefinedVision where
  facesJson : Option VisionFaces
  objectsTags : List String
  objectsRaw : List VisionRawBox
  paletteJson : Option (List PaletteEntry)
  contrast : Option ℚ
  csvFacesCount : ℚ
  csvFacesLargestAreaPct : ℚ
  csvPaletteTop1 : Option String
  csvTags : String
deriving DecidableEq, Repr

/-- refineVision of vision-post.util.ts. -/
def refineVision (v : VisionPayload) (hints : Option RefineHints) : RefinedVision :=
  { facesJson := v.faces
    objectsTags := refinedTags v hints
    objectsRaw := filteredRaw v
    paletteJson := v.palette
    contrast := v.contrast
    csvFacesCount := faceCountOf v
    csvFacesLargestAreaPct := largestPctOf v
    csvPaletteTop1 :=
      match v.palette with
      | some (p :: _) => some p.hex
      | _ => none
    csvTags := String.intercalate "|" (refinedTags v hints) }

theorem mem_filteredRaw (v : VisionPayload) (r : VisionRawBox) :
    r ∈ filteredRaw v ↔
      r ∈ objectsRawOf v ∧ (0.5 : ℚ) ≤ r.conf ∧ (0.002 : ℚ) ≤ r.w * r.h / imgArea v := by
  simp [filteredRaw, rawKeep, List.mem_filter, and_assoc]

theorem mem_condAddTag (c : Bool) (tags : List String) (tg x : String) :
    x ∈ (if c then addTag tags tg else tags) ↔ x ∈ tags ∨ (x = tg ∧ c = true) := by
  cases c <;> simp [mem_addTag]

theorem mem_refinedTags (v : VisionPayload) (hints : Option RefineHints) (t : String) :
    t ∈ refinedTags v hints ↔
      t ∈ objectsTagsOf v ∨
      (t = "car" ∧ vehicleCond v = true) ∨
      (t = "person" ∧ personCond v = true) ∨
      (t = "portrait" ∧ portraitCond v = true) ∨
      (t = "money" ∧ moneyCond hints = true) ∨
      (t = "fire" ∧ fireCond v = true) := by
  simp only [refinedTags, mem_condAddTag, mem_dedupFirst]
  tauto

theorem vehicleCond_iff (v : VisionPayload) :
    vehicleCond v = true ↔ ∃ r ∈ filteredRaw v, r.name ∈ vehicleNames := by
  simp [vehicleCond, List.any_eq_true]

theorem personCond_iff (v : VisionPayload) :
    personCond v = true ↔ ∃ r ∈ filteredRaw v, r.name = "person" := by
  rw [personCond, List.elem_iff, List.mem_map]

theorem portraitCond_iff (v : VisionPayload) :
    portraitCond v = true ↔ 0 < faceCountOf v ∧ (0.08 : ℚ) ≤ largestPctOf v := by
  simp [portraitCond]

theorem fireCond_iff (v : VisionPayload) :
    fireCond v = true ↔
      (∃ p ∈ v.palette.getD [], isWarmEntry p = true) ∧ (0.18 : ℚ) ≤ v.contrast.getD 0 := by
  simp [fireCond, List.any_eq_true]

/-! ## Channel entity and video.service.ts -/

/-- scrapeStatus values of the Channel entity. -/
inductive ScrapeStatus where
  | idle
  | queued
  | running
  | error
  | done
deriving DecidableEq, Repr

/-- The Channel row fields that the catalog pass reads or writes.  Date
columns are epoch milliseconds. -/
structure ChannelRow where
  id : String
  uploadsPlaylistId : Option String := none
  lastVideoPublishedAt : Option ℤ := none
  lastIngestAt : Option ℤ := none
  scrapeStatus : ScrapeStatus := .idle
  scrapeError : Option String := none
deriving DecidableEq, Repr

/-- overlapMs = 5 * 60 * 1000. -/
def overlapMs : ℤ := 5 * 60 * 1000

/-- The 90-day default lookback in milliseconds. -/
def ninetyDaysMs : ℤ := 90 * 24 * 60 * 60 * 1000

/-- The watermark / default branch of computePublishedAfter: watermark
minus the 5-minute overlap when present, else now minus 90 days. -/
def publishedAfterFallback (channel : Option ChannelRow) (now : ℤ) : ℤ :=
  match channel with
  | some c =>
    match c.lastVideoPublishedAt with
    | some t => t - overlapMs
    | none => now - ninetyDaysMs
  | none => now - ninetyDaysMs

/-- computePublishedAfter of video.service.ts.  Sum.inl s is the override
string returned unchanged; Sum.inr t stands for new Date(t).toISOString().
JS truthiness: an empty override string is falsy and falls through. -/
def computePublishedAfter (channel : Option ChannelRow) (override : Option String)
    (now : ℤ) : String ⊕ ℤ :=
  match override with
  | some s => if s = "" then Sum.inr (publishedAfterFallback channel now) else Sum.inl s
  | none => Sum.inr (publishedAfterFallback channel now)

/-- Days from 1970-01-01 to the given civil date (proleptic Gregorian),
the standard era-based algorithm with floor division. -/
def daysFromCivil (y m d : ℤ) : ℤ :=
  let y2 := if m ≤ 2 then y - 1 else y
  let era := Int.fdiv y2 400
  let yoe := y2 - era * 400
  let mm := if 2 < m then m - 3 else m + 9
  let doy := Int.fdiv (153 * mm + 2) 5 + d - 1
  let doe := yoe * 365 + Int.fdiv yoe 4 - Int.fdiv yoe 100 + doy
  era * 146097 + doe - 719468

/-- Epoch milliseconds of an UTC instant given as a civil date and time:
lets concrete theorems name instants the way the spec writes them. -/
def msOfUTC (y m d hh mi ss : ℤ) : ℤ :=
  (daysFromCivil y m d * 86400 + hh * 3600 + mi * 60 + ss) * 1000

open Classical in
/-- computeEngagement of video.service.ts: null when subscribers is falsy,
non-positive or views is negative; otherwise ln(views+1)/ln(subscribers+1)
guarded by a positive-denominator check.  Math.log is modelled by the real
logarithm. -/
noncomputable def computeEngagement (views subscribers : ℤ) : Option ℝ :=
  if subscribers = 0 ∨ subscribers ≤ 0 ∨ views < 0 then none
  else
    let denom := Real.log ((subscribers : ℝ) + 1)
    if 0 < denom then some (Real.log ((views : ℝ) + 1) / denom) else none

/-! ## youtube.client.ts : listUploadsSince -/

/-- One playlistItems entry: contentDetails.videoId and
contentDetails.videoPublishedAt, either may be absent.  The RFC-3339
publishedAt strings of the API compare lexicographically as their
instants, modelled directly as epoch milliseconds. -/
structure PlaylistItem where
  videoId : Option String := none
  videoPublishedAt : Option ℤ := none
deriving DecidableEq, Repr

/-- One page of the uploads playlist as the API returns it; nextPageToken
models whether the response carried a (truthy) next-page token. -/
structure UploadsPage where
  items : List PlaylistItem := []
  nextPageToken : Bool := false
deriving DecidableEq, Repr

/-- ListUploadsSinceResult. -/
structure ListUploadsResult where
  videoIds : List String
  mostRecentPublishedAt : Option ℤ
  pagesFetched : ℕ
deriving DecidableEq, Repr

/-- The per-item update of mostRecent:
if (vpa && (!mostRecent || vpa > mostRecent)) mostRecent = vpa. -/
def vpaMaxStep (acc : Option ℤ) (it : PlaylistItem) : Option ℤ :=
  match it.videoPublishedAt with
  | some vpa =>
    match acc with
    | none => some vpa
    | some m => if m < vpa then some vpa else acc
  | none => acc

/-- The per-page collection of ids:
if (vid && vpa && vpa >= publishedAfter) out.push(vid); an empty videoId
is falsy and skipped. -/
def collectIds (publishedAfter : ℤ) (items : List PlaylistItem) : List String :=
  items.filterMap fun it =>
    match it.videoId, it.videoPublishedAt with
    | some vid, some vpa =>
      if vid ≠ "" ∧ publishedAfter ≤ vpa then some vid else none
    | _, _ => none

/-- The do-while loop of listUploadsSince over the successive API pages;
out, mostRecent and pagesFetched are the loop variables.  Fetching past
the provided pages models an API response with no items. -/
def listUploadsAux (publishedAfter : ℤ) (maxVideos : Option ℕ) :
    List UploadsPage → List String → Option ℤ → ℕ → ListUploadsResult
  | [], out, mostRecent, pagesFetched =>
    { videoIds := out, mostRecentPublishedAt := mostRecent, pagesFetched := pagesFetched + 1 }
  | page :: rest, out, mostRecent, pagesFetched =>
    let pf1 := pagesFetched + 1
    if page.items.isEmpty then
      { videoIds := out, mostRecentPublishedAt := mostRecent, pagesFetched := pf1 }
    else
      let mr1 := page.items.foldl vpaMaxStep mostRecent
      let out1 := out ++ collectIds publishedAfter page.items
      let lastVpa := (page.items.getLast?).bind PlaylistItem.videoPublishedAt
      let hitCutoff :=
        match lastVpa with
        | some t => decide (t < publishedAfter)
        | none => false
      match maxVideos with
      | some m =>
        if m ≠ 0 ∧ m ≤ out1.length then
          -- reachedCap: truncate to the cap and stop
          { videoIds := out1.take m, mostRecentPublishedAt := mr1, pagesFetched := pf1 }
        else
          if !hitCutoff && page.nextPageToken then
            listUploadsAux publishedAfter maxVideos rest out1 mr1 pf1
          else
            { videoIds := out1, mostRecentPublishedAt := mr1, pagesFetched := pf1 }
      | none =>
        if !hitCutoff && page.nextPageToken then
          listUploadsAux publishedAfter maxVideos rest out1 mr1 pf1
        else
          { videoIds := out1, mostRecentPublishedAt := mr1, pagesFetched := pf1 }

/-- listUploadsSince of youtube.client.ts. -/
def listUploadsSince (pages : List UploadsPage) (publishedAfterMs : ℤ)
    (maxVideos : Option ℕ) : ListUploadsResult :=
  listUploadsAux publishedAfterMs maxVideos pages [] none 0

/-- The per-channel task body of ingestChannelsByIds (video.service.ts):
reads the channel row, marks it running, skips when the uploads pointer is
missing or empty (JS falsy), and otherwise finishes done with updated
markers or error when the awaited listing threw.  All row updates are
guarded by if (channelRow); video upserts run under Promise.allSettled and
never reach the channel row.  Returns the final state of the row. -/
def ingestOneChannel (channelRow : Option ChannelRow)
    (listing : Except String ListUploadsResult) (now : ℤ) : Option ChannelRow :=
  match channelRow with
  | none => none
  | some row =>
    let row1 : ChannelRow := { row with scrapeStatus := .running, scrapeError := none }
    match row.uploadsPlaylistId with
    | none => some row1
    | some pid =>
      if pid = "" then some row1
      else
        match listing with
        | .error e => some { row1 with scrapeStatus := .error, scrapeError := some e }
        | .ok res =>
          some { row1 with
            lastIngestAt := some now,
            lastVideoPublishedAt :=
              match res.mostRecentPublishedAt with
              | some t => some t
              | none => row1.lastVideoPublishedAt,
            scrapeStatus := .done }

/-! ## ingest service (video.service.ts second part): enrichment selection -/

/-- Milliseconds per day, for the sinceDays window. -/
def msPerDay : ℤ := 24 * 60 * 60 * 1000

/-- The Video columns the enrichment selection reads.  is_short and
has_720p_plus are the 0/1 numeric flag columns. -/
structure VideoRow where
  videoId : String
  channelId : String
  publishedAt : ℤ
  is_short : ℤ := 0
  has_720p_plus : ℤ := 1
  engagement : Option ℚ := none
deriving DecidableEq, Repr

/-- The WHERE clauses of selectEligiblePage except the keyset cursor:
is_short = 0, has_720p_plus = 1, no thumbnail row joins (videoId absent
from the thumbnail table), publishedAt within sinceDays of now, and
engagement > 0.7 (an SQL NULL engagement never satisfies the comparison). -/
def eligibleBase (thumbs : List String) (now sinceDays : ℤ) (v : VideoRow) : Bool :=
  decide (v.is_short = 0) && decide (v.has_720p_plus = 1) &&
    !(thumbs.contains v.videoId) &&
    decide (now - sinceDays * msPerDay ≤ v.publishedAt) &&
    (match v.engagement with
     | some e => decide ((0.7 : ℚ) < e)
     | none => false)

/-- The keyset cursor clause:
(publishedAt > cp) OR (publishedAt = cp AND videoId > cv). -/
def cursorOk (cursor : Option (ℤ × String)) (v : VideoRow) : Bool :=
  match cursor with
  | none => true
  | some (cp, cv) =>
    decide (cp < v.publishedAt) || (decide (v.publishedAt = cp) && decide (cv < v.videoId))

/-- ORDER BY publishedAt ASC, videoId ASC as a boolean comparison. -/
def rowLe (a b : VideoRow) : Bool :=
  decide (a.publishedAt < b.publishedAt) ||
    (decide (a.publishedAt = b.publishedAt) && decide (a.videoId ≤ b.videoId))

/-- selectEligiblePage of the ingest service: filter, stable total order,
first pageSize rows.  Only the pointer columns are returned by the source;
the full row stands in for the pointer here (same key data). -/
def selectEligiblePage (db : List VideoRow) (thumbs : List String) (now sinceDays : ℤ)
    (pageSize : ℕ) (cursor : Option (ℤ × String)) : List VideoRow :=
  (orderBy rowLe (db.filter fun v => eligibleBase thumbs now sinceDays v && cursorOk cursor v)).take
    pageSize

/-- The keyset cursor value of a row: (publishedAt, videoId). -/
def rowKey (v : VideoRow) : ℤ × String :=
  (v.publishedAt, v.videoId)

/-- Strict lexicographic order on cursor keys. -/
def keyLt (a b : ℤ × String) : Prop :=
  a.1 < b.1 ∨ (a.1 = b.1 ∧ a.2 < b.2)

theorem keyLt_trans {a b c : ℤ × String} (h1 : keyLt a b) (h2 : keyLt b c) : keyLt a c := by
  rcases h1 with h1 | ⟨h1e, h1s⟩ <;> rcases h2 with h2 | ⟨h2e, h2s⟩
  · exact Or.inl (h1.trans h2)
  · exact Or.inl (h2e ▸ h1)
  · exact Or.inl (h1e ▸ h2)
  · exact Or.inr ⟨h1e.trans h2e, h1s.trans h2s⟩

theorem keyLt_irrefl (a : ℤ × String) : ¬ keyLt a a := by
  rintro (h | ⟨_, h⟩) <;> exact lt_irrefl _ h

theorem cursorOk_some_iff (k : ℤ × String) (v : VideoRow) :
    cursorOk (some k) v = true ↔ keyLt k (rowKey v) := by
  obtain ⟨cp, cv⟩ := k
  simp only [cursorOk, keyLt, rowKey, Bool.or_eq_true, Bool.and_eq_true, decide_eq_true_eq]
  constructor
  · rintro (h | ⟨he, hs⟩)
    · exact Or.inl h
    · exact Or.inr ⟨he.symm, hs⟩
  · rintro (h | ⟨he, hs⟩)
    · exact Or.inl h
    · exact Or.inr ⟨he.symm, hs⟩

theorem mem_selectEligiblePage (db : List VideoRow) (thumbs : List String) (now sd : ℤ)
    (ps : ℕ) (cursor : Option (ℤ × String)) (v : VideoRow)
    (hv : v ∈ selectEligiblePage db thumbs now sd ps cursor) :
    v ∈ db ∧ eligibleBase thumbs now sd v = true ∧ cursorOk cursor v = true := by
  have h1 : v ∈ orderBy rowLe (db.filter fun v => eligibleBase thumbs now sd v && cursorOk cursor v) :=
    List.mem_of_mem_take hv
  have h2 := (mem_orderBy _ v _).mp h1
  have h3 := List.mem_filter.mp h2
  have h4 := h3.2
  simp only [Bool.and_eq_true] at h4
  exact ⟨h3.1, h4.1, h4.2⟩

/-- When a page is nonempty, the rows eligible past the cursor taken from
a row of the page are strictly fewer than the rows eligible past the
current cursor: the termination measure of the pagination loop. -/
theorem eligible_remaining_lt (db : List VideoRow) (thumbs : List String) (now sd : ℤ)
    (ps : ℕ) (cursor : Option (ℤ × String)) (last : VideoRow)
    (hmem : last ∈ selectEligiblePage db thumbs now sd ps cursor) :
    (db.filter fun v => eligibleBase thumbs now sd v &&
        cursorOk (some (rowKey last)) v).length <
      (db.filter fun v => eligibleBase thumbs now sd v && cursorOk cursor v).length := by
  obtain ⟨hdb, hbase, hcur⟩ := mem_selectEligiblePage db thumbs now sd ps cursor last hmem
  rw [← List.countP_eq_length_filter, ← List.countP_eq_length_filter]
  refine countP_lt_of_strict _ _ db ?_ last hdb ?_ ?_
  · intro a _ ha
    simp only [Bool.and_eq_true] at ha ⊢
    refine ⟨ha.1, ?_⟩
    have hk : keyLt (rowKey last) (rowKey a) := (cursorOk_some_iff _ a).mp ha.2
    match cursor with
    | none => rfl
    | some k0 =>
      have hk0 : keyLt k0 (rowKey last) := (cursorOk_some_iff k0 last).mp hcur
      exact (cursorOk_some_iff k0 a).mpr (keyLt_trans hk0 hk)
  · simp only [Bool.and_eq_true]
    exact ⟨hbase, hcur⟩
  · by_contra hc
    have hc' : (eligibleBase thumbs now sd last && cursorOk (some (rowKey last)) last) = true := by
      simpa using hc
    simp only [Bool.and_eq_true] at hc'
    exact keyLt_irrefl (rowKey last) ((cursorOk_some_iff _ last).mp hc'.2)

/-- The selection / cursor loop of runEnrichEligible: collects the
successive nonempty pages together with the cursor recorded after each
page (the key of its last row, page[page.length - 1]); the loop of the
source stops exactly when a page comes back empty.  Per-video enrichment
runs under Promise.allSettled and never changes which pages are fetched,
so the trace is the pagination behavior of runEnrichEligible. -/
def runEnrichTrace (db : List VideoRow) (thumbs : List String) (now sd : ℤ) (ps : ℕ)
    (cursor : Option (ℤ × String)) : List (List VideoRow × (ℤ × String)) :=
  match hl : (selectEligiblePage db thumbs now sd ps cursor).getLast? with
  | none => []
  | some last =>
    (selectEligiblePage db thumbs now sd ps cursor, rowKey last) ::
      runEnrichTrace db thumbs now sd ps (some (rowKey last))
termination_by (db.filter fun v => eligibleBase thumbs now sd v && cursorOk cursor v).length
decreasing_by
  exact eligible_remaining_lt db thumbs now sd ps cursor last (List.mem_of_mem_getLast? hl)

theorem rowLe_total (a b : VideoRow) : rowLe a b = true ∨ rowLe b a = true := by
  unfold rowLe
  rcases lt_trichotomy a.publishedAt b.publishedAt with h | h | h
  · exact Or.inl (by simp [h])
  · rcases le_total a.videoId b.videoId with h2 | h2
    · exact Or.inl (by simp [h, h2])
    · exact Or.inr (by simp [h.symm, h2])
  · exact Or.inr (by simp [h])

theorem rowLe_trans (a b c : VideoRow) (h1 : rowLe a b = true) (h2 : rowLe b c = true) :
    rowLe a c = true := by
  unfold rowLe at h1 h2 ⊢
  simp only [Bool.or_eq_true, Bool.and_eq_true, decide_eq_true_eq] at h1 h2 ⊢
  rcases h1 with h1 | ⟨h1e, h1s⟩ <;> rcases h2 with h2 | ⟨h2e, h2s⟩
  · exact Or.inl (h1.trans h2)
  · exact Or.inl (h2e ▸ h1)
  · exact Or.inl (h1e ▸ h2)
  · exact Or.inr ⟨h1e.trans h2e, h1s.trans h2s⟩

/-- The branch equations of the pagination loop. -/
theorem runEnrichTrace_nil (db : List VideoRow) (thumbs : List String) (now sd : ℤ)
    (ps : ℕ) (c : Option (ℤ × String))
    (h : selectEligiblePage db thumbs now sd ps c = []) :
    runEnrichTrace db thumbs now sd ps c = [] := by
  rw [runEnrichTrace.eq_def]
  split
  · rfl
  · next last heq =>
    rw [h] at heq
    cases heq

/-- See runEnrichTrace_nil. -/
theorem runEnrichTrace_cons (db : List VideoRow) (thumbs : List String) (now sd : ℤ)
    (ps : ℕ) (c : Option (ℤ × String)) (last : VideoRow)
    (hl : (selectEligiblePage db thumbs now sd ps c).getLast? = some last) :
    runEnrichTrace db thumbs now sd ps c =
      (selectEligiblePage db thumbs now sd ps c, rowKey last) ::
        runEnrichTrace db thumbs now sd ps (some (rowKey last)) := by
  rw [runEnrichTrace.eq_def]
  split
  · next heq =>
    rw [hl] at heq
    cases heq
  · next last' heq =>
    rw [hl] at heq
    cases heq
    rfl

/-- Correctness of one recorded trace: each recorded page is the nonempty
eligible page at its cursor, holds at most pageSize rows sorted by the
keyset order, every row is an eligible table row past the cursor, the
recorded cursor is the key of the last row, and the loop ends exactly when
the next page is empty. -/
def TraceOk (db : List VideoRow) (thumbs : List String) (now sd : ℤ) (ps : ℕ) :
    Option (ℤ × String) → List (List VideoRow × (ℤ × String)) → Prop
  | c, [] => selectEligiblePage db thumbs now sd ps c = []
  | c, (pg, k) :: rest =>
    pg = selectEligiblePage db thumbs now sd ps c ∧
    pg ≠ [] ∧
    pg.length ≤ ps ∧
    pg.Pairwise (fun a b => rowLe a b = true) ∧
    (∀ v ∈ pg, v ∈ db ∧ eligibleBase thumbs now sd v = true ∧ cursorOk c v = true) ∧
    (∃ last, pg.getLast? = some last ∧ k = rowKey last) ∧
    TraceOk db thumbs now sd ps (some k) rest

theorem traceOk_runEnrichTrace (db : List VideoRow) (thumbs : List String) (now sd : ℤ)
    (ps : ℕ) :
    ∀ c, TraceOk db thumbs now sd ps c (runEnrichTrace db thumbs now sd ps c) := by
  have H : ∀ (n : ℕ) (c : Option (ℤ × String)),
      (db.filter fun v => eligibleBase thumbs now sd v && cursorOk c v).length ≤ n →
      TraceOk db thumbs now sd ps c (runEnrichTrace db thumbs now sd ps c) := by
    intro n
    induction n with
    | zero =>
      intro c hc
      have hfil : (db.filter fun v => eligibleBase thumbs now sd v && cursorOk c v) = [] :=
        List.length_eq_zero.mp (Nat.le_zero.mp hc)
      have hsel : selectEligiblePage db thumbs now sd ps c = [] := by
        unfold selectEligiblePage
        rw [hfil]
        simp [orderBy]
      rw [runEnrichTrace_nil db thumbs now sd ps c hsel]
      exact hsel
    | succ n ih =>
      intro c hc
      rcases hl : (selectEligiblePage db thumbs now sd ps c).getLast? with _ | last
      · have hsel := List.getLast?_eq_none_iff.mp hl
        rw [runEnrichTrace_nil db thumbs now sd ps c hsel]
        exact hsel
      · rw [runEnrichTrace_cons db thumbs now sd ps c last hl]
        have hmem := List.mem_of_mem_getLast? hl
        have hne : selectEligiblePage db thumbs now sd ps c ≠ [] := by
          intro he
          rw [he] at hl
          cases hl
        have hsorted := sorted_orderBy rowLe rowLe_total rowLe_trans
          (db.filter fun v => eligibleBase thumbs now sd v && cursorOk c v)
        refine ⟨rfl, hne, ?_, ?_, ?_, ⟨last, hl, rfl⟩, ?_⟩
        · exact List.length_take_le _ _
        · exact hsorted.sublist (List.take_sublist _ _)
        · intro v hv
          exact mem_selectEligiblePage db thumbs now sd ps c v hv
        · apply ih
          have hlt := eligible_remaining_lt db thumbs now sd ps c last hmem
          omega
  intro c
  exact H _ c (le_refl _)

/-- The three rows of the C5 scenario, listed out of order in the table. -/
def vidT1 : VideoRow :=
  { videoId := "v1", channelId := "c", publishedAt := 1, engagement := some 1 }

/-- See vidT1. -/
def vidT2 : VideoRow :=
  { videoId := "v2", channelId := "c", publishedAt := 2, engagement := some 1 }

/-- See vidT1. -/
def vidT3 : VideoRow :=
  { videoId := "v3", channelId := "c", publishedAt := 3, engagement := some 1 }

/-! ## channel.service.ts : discoverFromHandles and listForIngest -/

/-- JS String.prototype.trim on the character list (whitespace from both
ends; the source handles are ASCII). -/
def trimChars (l : List Char) : List Char :=
  ((l.dropWhile Char.isWhitespace).reverse.dropWhile Char.isWhitespace).reverse

/-- normHandle: trim, keep an empty result, else ensure one leading @. -/
def normHandle (h : String) : String :=
  let s := String.mk (trimChars h.data)
  if s = "" then s
  else if s.data.head? = some '@' then s
  else "@" ++ s

/-- What one awaited getChannelByHandle call does for a handle: throws,
returns no item (or an item with no id), or returns an item whose id is
the given string. -/
inductive ResolveOutcome where
  | throwErr (msg : String)
  | noItem
  | found (channelId : String)
deriving DecidableEq, Repr

/-- The per-handle environment of one discovery run: the resolution
outcome and whether the following upsert throws (some msg) or succeeds. -/
structure DiscoverEnv where
  resolve : String → ResolveOutcome
  upsertErr : String → Option String

/-- The accumulators of the discovery loop. -/
structure DiscoverAcc where
  notFound : List String := []
  errors : List (String × String) := []
  mappings : List (String × String) := []
  upserts : ℕ := 0
deriving DecidableEq, Repr

/-- DiscoverSummary. -/
structure DiscoverSummary where
  handlesProcessed : ℕ
  resolved : ℕ
  notFound : List String
  upserts : ℕ
  errors : List (String × String)
  mappings : List (String × String)
deriving DecidableEq, Repr

/-- The loop body of discoverFromHandles for one handle: the try block
covers both the resolution and the upsert; an item without a truthy id
(absent or empty) is recorded as not found. -/
def discoverStep (env : DiscoverEnv) (acc : DiscoverAcc) (h : String) : DiscoverAcc :=
  match env.resolve h with
  | .throwErr m => { acc with errors := acc.errors ++ [(h, m)] }
  | .noItem => { acc with notFound := acc.notFound ++ [h] }
  | .found cid =>
    if cid = "" then { acc with notFound := acc.notFound ++ [h] }
    else
      match env.upsertErr h with
      | some m => { acc with errors := acc.errors ++ [(h, m)] }
      | none =>
        { acc with mappings := acc.mappings ++ [(h, cid)], upserts := acc.upserts + 1 }

/-- The deduplicated normalized input list
Array.from(new Set(handles.map(normHandle).filter(Boolean))). -/
def discoverInput (handles : List String) : List String :=
  dedupFirst ((handles.map normHandle).filter (· ≠ ""))

/-- discoverFromHandles of channel.service.ts: every per-handle failure is
caught inside the loop and recorded, so the function always returns a
summary (it never throws for a single handle). -/
def discoverFromHandles (env : DiscoverEnv) (handles : List String) : DiscoverSummary :=
  let input := discoverInput handles
  let acc := input.foldl (discoverStep env) {}
  { handlesProcessed := input.length
    resolved := acc.mappings.length
    notFound := acc.notFound
    upserts := acc.upserts
    errors := acc.errors
    mappings := acc.mappings }

/-- ListForIngestOptions. -/
structure ListForIngestOptions where
  limit : Option ℤ := none
  statuses : Option (List ScrapeStatus) := none
  channelIds : Option (List String) := none

/-- The WHERE clauses of listForIngest: the statuses / channelIds filters
are applied only when the option is a nonempty list (the source checks
statuses?.length, falsy for undefined and for 0). -/
def listForIngestKeep (opts : ListForIngestOptions) (c : ChannelRow) : Bool :=
  (match opts.statuses with
   | some l => if l.isEmpty then true else l.contains c.scrapeStatus
   | none => true) &&
  (match opts.channelIds with
   | some l => if l.isEmpty then true else l.contains c.id
   | none => true)

/-- Lexicographic comparison on (nullable lastIngestAt, id) with nulls
first. -/
def ingestOrderLe (oa ob : Option ℤ) (ia ib : String) : Bool :=
  match oa, ob with
  | none, none => decide (ia ≤ ib)
  | none, some _ => true
  | some _, none => false
  | some x, some y => decide (x < y) || (decide (x = y) && decide (ia ≤ ib))

/-- ORDER BY lastIngestAt ASC NULLS FIRST, id ASC as a boolean comparison. -/
def channelOrderLe (a b : ChannelRow) : Bool :=
  ingestOrderLe a.lastIngestAt b.lastIngestAt a.id b.id

/-- Ascending watermark order with nulls first, the order the claim
asserts for listForIngest (ordered by lastVideoPublishedAt): stated here
only to compare against what the code does. -/
def watermarkLe (a b : ChannelRow) : Bool :=
  match a.lastVideoPublishedAt, b.lastVideoPublishedAt with
  | none, _ => true
  | some _, none => false
  | some x, some y => decide (x ≤ y)

/-- listForIngest of channel.service.ts: filter, order by lastIngestAt
(nulls first) then id, and cap when a positive limit is given.  A pure
query: it writes nothing. -/
def listForIngest (db : List ChannelRow) (opts : ListForIngestOptions) : List ChannelRow :=
  let sorted := orderBy channelOrderLe (db.filter (listForIngestKeep opts))
  match opts.limit with
  | some n => if 0 < n then sorted.take n.toNat else sorted
  | none => sorted

/-! ## Claim C4 -/

/-- C4: computePublishedAfter returns the override unchanged whenever a
(truthy, i.e. nonempty) override is given; otherwise the stored watermark
minus exactly 5 minutes when one exists, else exactly 90 days before now;
in particular a watermark of 2024-01-10T00:00:00Z with no override yields
2024-01-09T23:55:00Z. -/
theorem claim_C4_computePublishedAfter :
    (∀ (ch : Option ChannelRow) (now : ℤ) (s : String), s ≠ "" →
      computePublishedAfter ch (some s) now = Sum.inl s) ∧
    (∀ (c : ChannelRow) (now w : ℤ), c.lastVideoPublishedAt = some w →
      computePublishedAfter (some c) none now = Sum.inr (w - 5 * 60 * 1000)) ∧
    (∀ (c : ChannelRow) (now : ℤ), c.lastVideoPublishedAt = none →
      computePublishedAfter (some c) none now = Sum.inr (now - 90 * 24 * 60 * 60 * 1000)) ∧
    (∀ now : ℤ, computePublishedAfter none none now = Sum.inr (now - 90 * 24 * 60 * 60 * 1000)) ∧
    (∀ (c : ChannelRow) (now : ℤ), c.lastVideoPublishedAt = some (msOfUTC 2024 1 10 0 0 0) →
      computePublishedAfter (some c) none now = Sum.inr (msOfUTC 2024 1 9 23 55 0)) := by
  refine ⟨?_, ?_, ?_, ?_, ?_⟩
  · intro ch now s hs
    simp [computePublishedAfter, hs]
  · intro c now w hw
    simp [computePublishedAfter, publishedAfterFallback, hw, overlapMs]
  · intro c now hw
    simp [computePublishedAfter, publishedAfterFallback, hw, ninetyDaysMs]
  · intro now
    simp [computePublishedAfter, publishedAfterFallback, ninetyDaysMs]
  · intro c now hw
    simp only [computePublishedAfter, publishedAfterFallback, hw]
    congr 1

/-- Witness for C4 at concrete inputs: a nonempty override comes back
unchanged, and the 2024-01-10 watermark scenario. -/
theorem claim_C4_witness :
    computePublishedAfter none (some "2024-01-01T00:00:00Z") 0 =
      Sum.inl "2024-01-01T00:00:00Z" ∧
    computePublishedAfter
        (some { id := "c", lastVideoPublishedAt := some (msOfUTC 2024 1 10 0 0 0) }) none 0 =
      Sum.inr (msOfUTC 2024 1 9 23 55 0) :=
  ⟨claim_C4_computePublishedAfter.1 none 0 _ (by decide),
   claim_C4_computePublishedAfter.2.2.2.2 _ 0 rfl⟩

/-! ## Claim C6 -/

/-- C6: with views >= 0 and subscribers > 0 the engagement score is
ln(views+1)/ln(subscribers+1), a nonnegative (finite) real; with
subscribers <= 0 it is null. -/
theorem claim_C6_engagement :
    (∀ views subs : ℤ, 0 ≤ views → 0 < subs →
      computeEngagement views subs =
        some (Real.log ((views : ℝ) + 1) / Real.log ((subs : ℝ) + 1)) ∧
      ∀ x : ℝ, computeEngagement views subs = some x → 0 ≤ x) ∧
    (∀ views subs : ℤ, subs ≤ 0 → computeEngagement views subs = none) := by
  constructor
  · intro views subs hv hs
    have hcond : ¬ (subs = 0 ∨ subs ≤ 0 ∨ views < 0) := by omega
    have hden : 0 < Real.log ((subs : ℝ) + 1) := by
      apply Real.log_pos
      have : (1 : ℝ) ≤ (subs : ℝ) := by exact_mod_cast hs
      linarith
    have hnum : 0 ≤ Real.log ((views : ℝ) + 1) := by
      apply Real.log_nonneg
      have : (0 : ℝ) ≤ (views : ℝ) := by exact_mod_cast hv
      linarith
    have heq : computeEngagement views subs =
        some (Real.log ((views : ℝ) + 1) / Real.log ((subs : ℝ) + 1)) := by
      rw [computeEngagement, if_neg hcond]
      simp only []
      rw [if_pos hden]
    refine ⟨heq, ?_⟩
    intro x hx
    rw [heq] at hx
    obtain rfl : Real.log ((views : ℝ) + 1) / Real.log ((subs : ℝ) + 1) = x :=
      Option.some_injective _ hx
    exact div_nonneg hnum hden.le
  · intro views subs hs
    rw [computeEngagement, if_pos (Or.inr (Or.inl hs))]

/-- Witness for C6: views 0 with subscribers 1 yields the score formula
(a nonnegative real), and subscribers -1 yields null. -/
theorem claim_C6_witness :
    computeEngagement 0 1 =
      some (Real.log (((0 : ℤ) : ℝ) + 1) / Real.log (((1 : ℤ) : ℝ) + 1)) ∧
    computeEngagement 5 (-1) = none :=
  ⟨(claim_C6_engagement.1 0 1 (by decide) (by decide)).1,
   claim_C6_engagement.2 5 (-1) (by decide)⟩

/-! ## Claim C10 -/

/-- C10: with imageSize absent the frame defaults to 1 x 1, so a raw
detection passes the filter exactly when its confidence is at least 0.5
and its raw pixel area w*h is at least 0.002, whatever the true image
dimensions were. -/
theorem claim_C10_area_default (v : VisionPayload) (hints : Option RefineHints)
    (r : VisionRawBox) (h : v.imageSize = none) :
    r ∈ (refineVision v hints).objectsRaw ↔
      r ∈ objectsRawOf v ∧ (0.5 : ℚ) ≤ r.conf ∧ (0.002 : ℚ) ≤ r.w * r.h := by
  have h1 : imgArea v = 1 := by simp [imgArea, visionWidth, visionHeight, h]
  have h2 : (refineVision v hints).objectsRaw = filteredRaw v := rfl
  rw [h2, mem_filteredRaw, h1, div_one]

/-- A payload with no imageSize and a single small detection. -/
def visionNoSize : VisionPayload :=
  { objects := some { tags := [], raw := some [⟨"person", 0.8, 0, 0, 0.05, 0.05⟩] } }

/-- Witness for C10: the 0.05 x 0.05 detection (raw area 0.0025) passes
the filter of the no-imageSize payload. -/
theorem claim_C10_witness :
    (⟨"person", 0.8, 0, 0, 0.05, 0.05⟩ : VisionRawBox) ∈
      (refineVision visionNoSize none).objectsRaw :=
  (claim_C10_area_default visionNoSize none _ rfl).mpr
    ⟨by simp [objectsRawOf, visionNoSize], by norm_num, by norm_num⟩

/-! ## Claim C7 -/

/-- C7 (amended): the raw detections kept are exactly those with
confidence at least 0.5 and area fraction at least 0.2 percent; the coarse
tag added for a surviving vehicle-class detection is "car"; "person",
"portrait", "money" and "fire" are added exactly under the stated
conditions, on top of the deduplicated incoming payload tags. -/
theorem claim_C7_refine_tags (v : VisionPayload) (hints : Option RefineHints) :
    (∀ r, r ∈ (refineVision v hints).objectsRaw ↔
      r ∈ objectsRawOf v ∧ (0.5 : ℚ) ≤ r.conf ∧ (0.002 : ℚ) ≤ r.w * r.h / imgArea v) ∧
    (∀ t, t ∈ (refineVision v hints).objectsTags ↔
      (t ∈ objectsTagsOf v ∨
       (t = "car" ∧ ∃ r ∈ filteredRaw v, r.name ∈ vehicleNames) ∨
       (t = "person" ∧ ∃ r ∈ filteredRaw v, r.name = "person") ∨
       (t = "portrait" ∧ 0 < faceCountOf v ∧ (0.08 : ℚ) ≤ largestPctOf v) ∨
       (t = "money" ∧ moneyCond hints = true) ∨
       (t = "fire" ∧ (∃ p ∈ v.palette.getD [], isWarmEntry p = true) ∧
         (0.18 : ℚ) ≤ v.contrast.getD 0))) := by
  constructor
  · intro r
    exact mem_filteredRaw v r
  · intro t
    have h2 : (refineVision v hints).objectsTags = refinedTags v hints := rfl
    rw [h2, mem_refinedTags, ← vehicleCond_iff, ← personCond_iff, ← portraitCond_iff,
      ← fireCond_iff]

/-- A payload whose only raw detection is a confident truck box covering
one percent of a 10 x 10 frame. -/
def visionVehicleOnly : VisionPayload :=
  { objects := some { tags := [], raw := some [⟨"truck", 0.9, 0, 0, 1, 1⟩] },
    imageSize := some { width := 10, height := 10 } }

/-- C7 counterexample: a vehicle-class detection survives the filter, yet
the tag set gains "car", not "vehicle". -/
theorem claim_C7_counterexample :
    (∃ r ∈ (refineVision visionVehicleOnly none).objectsRaw, r.name ∈ vehicleNames) ∧
    "vehicle" ∉ (refineVision visionVehicleOnly none).objectsTags ∧
    "car" ∈ (refineVision visionVehicleOnly none).objectsTags := by
  have hkeep : rawKeep visionVehicleOnly ⟨"truck", 0.9, 0, 0, 1, 1⟩ = true := by
    simp only [rawKeep, imgArea, visionWidth, visionHeight, visionVehicleOnly]
    norm_num
  have hobjs : objectsRawOf visionVehicleOnly = [⟨"truck", 0.9, 0, 0, 1, 1⟩] := rfl
  have hraw : (refineVision visionVehicleOnly none).objectsRaw = [⟨"truck", 0.9, 0, 0, 1, 1⟩] := by
    show filteredRaw visionVehicleOnly = _
    rw [filteredRaw, hobjs, List.filter_cons, if_pos hkeep, List.filter_nil]
  have hveh : vehicleCond visionVehicleOnly = true := by
    have : filteredRaw visionVehicleOnly = [⟨"truck", 0.9, 0, 0, 1, 1⟩] := hraw
    simp [vehicleCond, this, vehicleNames]
  refine ⟨⟨⟨"truck", 0.9, 0, 0, 1, 1⟩, ?_, ?_⟩, ?_, ?_⟩
  · rw [hraw]
    exact List.mem_singleton_self _
  · simp [vehicleNames]
  · show "vehicle" ∉ refinedTags visionVehicleOnly none
    rw [mem_refinedTags]
    simp [objectsTagsOf, visionVehicleOnly]
  · show "car" ∈ refinedTags visionVehicleOnly none
    rw [mem_refinedTags]
    exact Or.inr (Or.inl ⟨rfl, hveh⟩)

/-! ## Claim C2 -/

/-- C2: every row of an eligible page is a row of the video table that is
not short-form, has the 720p-plus flag, has no enriched thumbnail record,
was published within sinceDays of now, and has engagement strictly above
0.7 — in every run, so an already-enriched video is never selected again. -/
theorem claim_C2_select_eligible (db : List VideoRow) (thumbs : List String)
    (now sd : ℤ) (ps : ℕ) (cursor : Option (ℤ × String)) (v : VideoRow)
    (hv : v ∈ selectEligiblePage db thumbs now sd ps cursor) :
    v ∈ db ∧ v.is_short = 0 ∧ v.has_720p_plus = 1 ∧ v.videoId ∉ thumbs ∧
      now - sd * msPerDay ≤ v.publishedAt ∧
      ∃ e, v.engagement = some e ∧ (0.7 : ℚ) < e := by
  obtain ⟨hdb, hbase, _⟩ := mem_selectEligiblePage db thumbs now sd ps cursor v hv
  simp only [eligibleBase, Bool.and_eq_true, Bool.not_eq_true', decide_eq_true_eq] at hbase
  obtain ⟨⟨⟨⟨hshort, hres⟩, hthumb⟩, hwin⟩, heng⟩ := hbase
  refine ⟨hdb, hshort, hres, ?_, hwin, ?_⟩
  · intro hc
    have hthumb' : List.elem v.videoId thumbs = false := hthumb
    rw [List.elem_iff.mpr hc] at hthumb'
    simp at hthumb'
  · cases he : v.engagement with
    | none => rw [he] at heng; cases heng
    | some e =>
      rw [he] at heng
      exact ⟨e, rfl, by simpa using heng⟩

/-- An eligible concrete row. -/
def videoEligible : VideoRow :=
  { videoId := "w1", channelId := "c", publishedAt := 5, engagement := some 1 }

/-- Witness for C2: the single eligible row of a one-row table is selected
and satisfies the eligibility conjunction. -/
theorem claim_C2_witness :
    videoEligible ∈ [videoEligible] ∧ videoEligible.is_short = 0 ∧
      videoEligible.has_720p_plus = 1 ∧ videoEligible.videoId ∉ ([] : List String) ∧
      (5 : ℤ) - 1 * msPerDay ≤ videoEligible.publishedAt ∧
      ∃ e, videoEligible.engagement = some e ∧ (0.7 : ℚ) < e :=
  claim_C2_select_eligible [videoEligible] [] 5 1 1 none videoEligible
    (by
      have : eligibleBase [] 5 1 videoEligible = true := by
        simp only [eligibleBase, videoEligible, msPerDay]
        norm_num
      simp [selectEligiblePage, orderBy, insertPos, this, cursorOk])

/-! ## Claim C9 -/

/-- Rows whose lastIngestAt order and lastVideoPublishedAt order disagree. -/
def chanIngestEarly : ChannelRow :=
  { id := "a", lastIngestAt := some 0, lastVideoPublishedAt := some 10 }

/-- See chanIngestEarly. -/
def chanIngestLate : ChannelRow :=
  { id := "b", lastIngestAt := some 1, lastVideoPublishedAt := some 5 }

/-- C9 counterexample: listForIngest returns the channels ordered by
lastIngestAt, so the watermarks come back as 10 then 5 — not ascending by
lastVideoPublishedAt as the claim states. -/
theorem claim_C9_counterexample :
    (listForIngest [chanIngestEarly, chanIngestLate] {}).map ChannelRow.id = ["a", "b"] ∧
    (listForIngest [chanIngestEarly, chanIngestLate] {}).map ChannelRow.lastVideoPublishedAt =
      [some 10, some 5] ∧
    ¬ (listForIngest [chanIngestEarly, chanIngestLate] {}).Pairwise
        (fun x y => watermarkLe x y = true) := by
  have hord : channelOrderLe chanIngestEarly chanIngestLate = true := by
    simp [channelOrderLe, ingestOrderLe, chanIngestEarly, chanIngestLate]
  have h : listForIngest [chanIngestEarly, chanIngestLate] {} =
      [chanIngestEarly, chanIngestLate] := by
    simp [listForIngest, listForIngestKeep, orderBy, insertPos, hord]
  rw [h]
  refine ⟨rfl, rfl, ?_⟩
  intro hp
  have := (List.pairwise_cons.mp hp).1 chanIngestLate (List.mem_singleton_self _)
  simp [watermarkLe, chanIngestEarly, chanIngestLate] at this

theorem ingestOrderLe_total (oa ob : Option ℤ) (ia ib : String) :
    ingestOrderLe oa ob ia ib = true ∨ ingestOrderLe ob oa ib ia = true := by
  match oa, ob with
  | none, none =>
    rcases le_total ia ib with h | h
    · exact Or.inl (by simpa [ingestOrderLe] using h)
    · exact Or.inr (by simpa [ingestOrderLe] using h)
  | none, some y => exact Or.inl rfl
  | some x, none => exact Or.inr rfl
  | some x, some y =>
    rcases lt_trichotomy x y with h | h | h
    · exact Or.inl (by simp [ingestOrderLe, h])
    · rcases le_total ia ib with h2 | h2
      · exact Or.inl (by simp [ingestOrderLe, h, h2])
      · exact Or.inr (by simp [ingestOrderLe, h.symm, h2])
    · exact Or.inr (by simp [ingestOrderLe, h])

theorem channelOrderLe_total (a b : ChannelRow) :
    channelOrderLe a b = true ∨ channelOrderLe b a = true :=
  ingestOrderLe_total a.lastIngestAt b.lastIngestAt a.id b.id

theorem ingestOrderLe_trans (oa ob oc : Option ℤ) (ia ib ic : String)
    (h1 : ingestOrderLe oa ob ia ib = true) (h2 : ingestOrderLe ob oc ib ic = true) :
    ingestOrderLe oa oc ia ic = true := by
  unfold ingestOrderLe at h1 h2 ⊢
  match oa, ob, oc with
  | none, none, none =>
    simp only [decide_eq_true_eq] at h1 h2 ⊢
    exact h1.trans h2
  | none, _, some _ => rfl
  | none, some _, none => cases h2
  | some _, none, _ => cases h1
  | some _, some _, none => cases h2
  | some x, some y, some z =>
    simp only [Bool.or_eq_true, Bool.and_eq_true, decide_eq_true_eq] at h1 h2 ⊢
    rcases h1 with h1 | ⟨h1e, h1s⟩ <;> rcases h2 with h2 | ⟨h2e, h2s⟩
    · exact Or.inl (h1.trans h2)
    · exact Or.inl (h2e ▸ h1)
    · exact Or.inl (h1e ▸ h2)
    · exact Or.inr ⟨h1e.trans h2e, h1s.trans h2s⟩

theorem channelOrderLe_trans (a b c : ChannelRow)
    (h1 : channelOrderLe a b = true) (h2 : channelOrderLe b c = true) :
    channelOrderLe a c = true :=
  ingestOrderLe_trans a.lastIngestAt b.lastIngestAt c.lastIngestAt a.id b.id c.id h1 h2

/-- The three shapes of listForIngest by limit option. -/
theorem listForIngest_eq (db : List ChannelRow) (opts : ListForIngestOptions) :
    listForIngest db opts =
      match opts.limit with
      | some n =>
        if 0 < n then (orderBy channelOrderLe (db.filter (listForIngestKeep opts))).take n.toNat
        else orderBy channelOrderLe (db.filter (listForIngestKeep opts))
      | none => orderBy channelOrderLe (db.filter (listForIngestKeep opts)) := rfl

theorem listForIngest_limit_none (db : List ChannelRow) (opts : ListForIngestOptions)
    (h : opts.limit = none) :
    listForIngest db opts = orderBy channelOrderLe (db.filter (listForIngestKeep opts)) := by
  rw [listForIngest_eq, h]

theorem listForIngest_limit_some (db : List ChannelRow) (opts : ListForIngestOptions)
    (n : ℤ) (h : opts.limit = some n) :
    listForIngest db opts =
      if 0 < n then (orderBy channelOrderLe (db.filter (listForIngestKeep opts))).take n.toNat
      else orderBy channelOrderLe (db.filter (listForIngestKeep opts)) := by
  rw [listForIngest_eq, h]

/-- C9 (amended): listForIngest returns rows of the table that pass the
optional status and id filters, ordered by lastIngestAt ascending with
nulls first then id ascending, capped by a positive limit; the model is a
pure query (no writes). -/
theorem claim_C9_listForIngest (db : List ChannelRow) (opts : ListForIngestOptions) :
    (∀ c ∈ listForIngest db opts, c ∈ db ∧ listForIngestKeep opts c = true ∧
      (∀ l, opts.statuses = some l → l ≠ [] → c.scrapeStatus ∈ l) ∧
      (∀ l, opts.channelIds = some l → l ≠ [] → c.id ∈ l)) ∧
    (listForIngest db opts).Pairwise (fun a b => channelOrderLe a b = true) ∧
    (∀ n : ℤ, opts.limit = some n → 0 < n → (listForIngest db opts).length ≤ n.toNat) := by
  have hsorted : (orderBy channelOrderLe (db.filter (listForIngestKeep opts))).Pairwise
      (fun a b => channelOrderLe a b = true) :=
    sorted_orderBy channelOrderLe channelOrderLe_total channelOrderLe_trans _
  have hsub : ∀ c ∈ listForIngest db opts,
      c ∈ orderBy channelOrderLe (db.filter (listForIngestKeep opts)) := by
    intro c hc
    rcases hl : opts.limit with _ | n
    · rwa [listForIngest_limit_none db opts hl] at hc
    · rw [listForIngest_limit_some db opts n hl] at hc
      by_cases hn : 0 < n
      · rw [if_pos hn] at hc
        exact List.mem_of_mem_take hc
      · rwa [if_neg hn] at hc
  refine ⟨?_, ?_, ?_⟩
  · intro c hc
    have hm := hsub c hc
    rw [mem_orderBy] at hm
    have hf := List.mem_filter.mp hm
    refine ⟨hf.1, hf.2, ?_, ?_⟩
    · intro l hl hne
      have := hf.2
      rw [listForIngestKeep, hl] at this
      simp only [Bool.and_eq_true] at this
      have h1 := this.1
      rw [if_neg (by simpa [List.isEmpty_iff] using hne)] at h1
      exact List.elem_iff.mp h1
    · intro l hl hne
      have := hf.2
      rw [listForIngestKeep, hl] at this
      simp only [Bool.and_eq_true] at this
      have h1 := this.2
      rw [if_neg (by simpa [List.isEmpty_iff] using hne)] at h1
      exact List.elem_iff.mp h1
  · rcases hl : opts.limit with _ | n
    · rw [listForIngest_limit_none db opts hl]
      exact hsorted
    · rw [listForIngest_limit_some db opts n hl]
      by_cases hn : 0 < n
      · rw [if_pos hn]
        exact hsorted.sublist (List.take_sublist _ _)
      · rw [if_neg hn]
        exact hsorted
  · intro n hl hn
    rw [listForIngest_limit_some db opts n hl, if_pos hn]
    exact List.length_take_le _ _

/-! ## Claim C3 -/

/-- The max publish time over the items of the first k pages (the pages
the pagination actually fetched), folded exactly as the loop does. -/
def observedMax (pages : List UploadsPage) (k : ℕ) : Option ℤ :=
  (pages.take k).foldl (fun a p => p.items.foldl vpaMaxStep a) none

theorem listUploadsAux_pagesFetched_ge (after : ℤ) (maxV : Option ℕ)
    (pages : List UploadsPage) (out : List String) (mr : Option ℤ) (pf : ℕ) :
    pf + 1 ≤ (listUploadsAux after maxV pages out mr pf).pagesFetched := by
  induction pages, out, mr, pf using listUploadsAux.induct after maxV with
  | case1 out mr pf => simp [listUploadsAux]
  | case2 page rest out mr pf h => simp [listUploadsAux, h]
  | case3 page rest out mr pf h out1 m hmax hcap =>
    simp only [out1] at hcap
    subst hmax
    simp only [listUploadsAux]
    rw [if_neg h]
    rw [if_pos hcap]
  | case4 page rest out mr pf pf1 h mr1 out1 lastVpa hitCutoff m hmax hnotcap hcont ih =>
    simp only [pf1, mr1, out1, lastVpa, hitCutoff] at hnotcap hcont ih
    subst hmax
    simp only [listUploadsAux]
    rw [if_neg h]
    rw [if_neg hnotcap, if_pos hcont]
    omega
  | case5 page rest out mr pf h out1 lastVpa hitCutoff m hmax hnotcap hnotcont =>
    simp only [out1, lastVpa, hitCutoff] at hnotcap hnotcont
    subst hmax
    simp only [listUploadsAux]
    rw [if_neg h]
    rw [if_neg hnotcap, if_neg hnotcont]
  | case6 page rest out mr pf pf1 h mr1 out1 lastVpa hitCutoff hmax hcont ih =>
    simp only [pf1, mr1, out1, lastVpa, hitCutoff] at hcont ih
    subst hmax
    simp only [listUploadsAux]
    rw [if_neg h]
    rw [if_pos hcont]
    omega
  | case7 page rest out mr pf h lastVpa hitCutoff hmax hnotcont =>
    simp only [lastVpa, hitCutoff] at hnotcont
    subst hmax
    simp only [listUploadsAux]
    rw [if_neg h]
    rw [if_neg hnotcont]

theorem listUploadsAux_mostRecent (after : ℤ) (maxV : Option ℕ)
    (pages : List UploadsPage) (out : List String) (mr : Option ℤ) (pf : ℕ) :
    (listUploadsAux after maxV pages out mr pf).mostRecentPublishedAt =
      (pages.take ((listUploadsAux after maxV pages out mr pf).pagesFetched - pf)).foldl
        (fun a p => p.items.foldl vpaMaxStep a) mr := by
  induction pages, out, mr, pf using listUploadsAux.induct after maxV with
  | case1 out mr pf => simp [listUploadsAux]
  | case2 page rest out mr pf h =>
    have hi : page.items = [] := List.isEmpty_iff.mp h
    simp [listUploadsAux, h, hi, List.take_succ_cons]
  | case3 page rest out mr pf h out1 m hmax hcap =>
    simp only [out1] at hcap
    subst hmax
    simp only [listUploadsAux]
    rw [if_neg h]
    rw [if_pos hcap]
    have h1 : pf + 1 - pf = 1 := by omega
    simp [h1, List.take_succ_cons]
  | case4 page rest out mr pf pf1 h mr1 out1 lastVpa hitCutoff m hmax hnotcap hcont ih =>
    simp only [pf1, mr1, out1, lastVpa, hitCutoff] at hnotcap hcont ih
    subst hmax
    have hge := listUploadsAux_pagesFetched_ge after (some m) rest
      (out ++ collectIds after page.items) (List.foldl vpaMaxStep mr page.items) (pf + 1)
    simp only [listUploadsAux]
    rw [if_neg h]
    rw [if_neg hnotcap, if_pos hcont]
    have harith : (listUploadsAux after (some m) rest (out ++ collectIds after page.items)
        (List.foldl vpaMaxStep mr page.items) (pf + 1)).pagesFetched - pf =
        ((listUploadsAux after (some m) rest (out ++ collectIds after page.items)
          (List.foldl vpaMaxStep mr page.items) (pf + 1)).pagesFetched - (pf + 1)) + 1 := by
      omega
    rw [harith, List.take_succ_cons, List.foldl_cons]
    exact ih
  | case5 page rest out mr pf h out1 lastVpa hitCutoff m hmax hnotcap hnotcont =>
    simp only [out1, lastVpa, hitCutoff] at hnotcap hnotcont
    subst hmax
    simp only [listUploadsAux]
    rw [if_neg h]
    rw [if_neg hnotcap, if_neg hnotcont]
    have h1 : pf + 1 - pf = 1 := by omega
    simp [h1, List.take_succ_cons]
  | case6 page rest out mr pf pf1 h mr1 out1 lastVpa hitCutoff hmax hcont ih =>
    simp only [pf1, mr1, out1, lastVpa, hitCutoff] at hcont ih
    subst hmax
    have hge := listUploadsAux_pagesFetched_ge after none rest
      (out ++ collectIds after page.items) (List.foldl vpaMaxStep mr page.items) (pf + 1)
    simp only [listUploadsAux]
    rw [if_neg h]
    rw [if_pos hcont]
    have harith : (listUploadsAux after none rest (out ++ collectIds after page.items)
        (List.foldl vpaMaxStep mr page.items) (pf + 1)).pagesFetched - pf =
        ((listUploadsAux after none rest (out ++ collectIds after page.items)
          (List.foldl vpaMaxStep mr page.items) (pf + 1)).pagesFetched - (pf + 1)) + 1 := by
      omega
    rw [harith, List.take_succ_cons, List.foldl_cons]
    exact ih
  | case7 page rest out mr pf h lastVpa hitCutoff hmax hnotcont =>
    simp only [lastVpa, hitCutoff] at hnotcont
    subst hmax
    simp only [listUploadsAux]
    rw [if_neg h]
    rw [if_neg hnotcont]
    have h1 : pf + 1 - pf = 1 := by omega
    simp [h1, List.take_succ_cons]

/-- The loop's mostRecent is exactly the vpaMaxStep fold over the fetched
pages. -/
theorem listUploadsSince_mostRecent (pages : List UploadsPage) (after : ℤ)
    (maxV : Option ℕ) :
    (listUploadsSince pages after maxV).mostRecentPublishedAt =
      observedMax pages (listUploadsSince pages after maxV).pagesFetched := by
  have := listUploadsAux_mostRecent after maxV pages [] none 0
  simpa [listUploadsSince, observedMax] using this

theorem foldl_vpaMaxStep_spec (l : List PlaylistItem) :
    ∀ (acc : Option ℤ) (t : ℤ), l.foldl vpaMaxStep acc = some t →
      (acc = some t ∨ ∃ it ∈ l, it.videoPublishedAt = some t) ∧
      (∀ u, acc = some u → u ≤ t) ∧
      (∀ it ∈ l, ∀ u, it.videoPublishedAt = some u → u ≤ t) := by
  induction l with
  | nil =>
    intro acc t h
    simp only [List.foldl_nil] at h
    refine ⟨Or.inl h, ?_, ?_⟩
    · intro u hu
      rw [h] at hu
      cases hu
      exact le_refl t
    · intro it hit
      cases hit
  | cons it l ih =>
    intro acc t h
    rw [List.foldl_cons] at h
    obtain ⟨h1, h2, h3⟩ := ih (vpaMaxStep acc it) t h
    rcases hv : it.videoPublishedAt with _ | vpa
    · have hstep : vpaMaxStep acc it = acc := by simp [vpaMaxStep, hv]
      rw [hstep] at h1 h2
      refine ⟨?_, h2, ?_⟩
      · rcases h1 with h1 | ⟨x, hx, hxv⟩
        · exact Or.inl h1
        · exact Or.inr ⟨x, List.mem_cons_of_mem _ hx, hxv⟩
      · intro it' hit' u hu
        rcases List.mem_cons.mp hit' with rfl | hit'
        · rw [hv] at hu
          cases hu
        · exact h3 it' hit' u hu
    · rcases ha : acc with _ | m
      · have hstep : vpaMaxStep acc it = some vpa := by simp [vpaMaxStep, hv, ha]
        rw [hstep] at h1 h2
        have hvpa_le : vpa ≤ t := h2 vpa rfl
        refine ⟨?_, ?_, ?_⟩
        · rcases h1 with h1 | ⟨x, hx, hxv⟩
          · cases h1
            exact Or.inr ⟨it, List.mem_cons_self it l, hv⟩
          · exact Or.inr ⟨x, List.mem_cons_of_mem _ hx, hxv⟩
        · intro u hu
          cases hu
        · intro it' hit' u hu
          rcases List.mem_cons.mp hit' with rfl | hit'
          · rw [hv] at hu
            cases hu
            exact hvpa_le
          · exact h3 it' hit' u hu
      · by_cases hlt : m < vpa
        · have hstep : vpaMaxStep acc it = some vpa := by simp [vpaMaxStep, hv, ha, hlt]
          rw [hstep] at h1 h2
          have hvpa_le : vpa ≤ t := h2 vpa rfl
          refine ⟨?_, ?_, ?_⟩
          · rcases h1 with h1 | ⟨x, hx, hxv⟩
            · cases h1
              exact Or.inr ⟨it, List.mem_cons_self it l, hv⟩
            · exact Or.inr ⟨x, List.mem_cons_of_mem _ hx, hxv⟩
          · intro u hu
            cases hu
            exact le_of_lt (lt_of_lt_of_le hlt hvpa_le)
          · intro it' hit' u hu
            rcases List.mem_cons.mp hit' with rfl | hit'
            · rw [hv] at hu
              cases hu
              exact hvpa_le
            · exact h3 it' hit' u hu
        · have hstep : vpaMaxStep acc it = some m := by simp [vpaMaxStep, hv, ha, hlt]
          rw [hstep] at h1 h2
          have hm_le : m ≤ t := h2 m rfl
          refine ⟨?_, ?_, ?_⟩
          · rcases h1 with h1 | ⟨x, hx, hxv⟩
            · cases h1
              exact Or.inl rfl
            · exact Or.inr ⟨x, List.mem_cons_of_mem _ hx, hxv⟩
          · intro u hu
            cases hu
            exact hm_le
          · intro it' hit' u hu
            rcases List.mem_cons.mp hit' with rfl | hit'
            · rw [hv] at hu
              cases hu
              exact le_trans (le_of_not_lt hlt) hm_le
            · exact h3 it' hit' u hu

theorem foldl_vpaMaxStep_none (l : List PlaylistItem) :
    ∀ acc : Option ℤ, l.foldl vpaMaxStep acc = none →
      acc = none ∧ ∀ it ∈ l, it.videoPublishedAt = none := by
  induction l with
  | nil =>
    intro acc h
    exact ⟨h, fun it hit => absurd hit (List.not_mem_nil it)⟩
  | cons it l ih =>
    intro acc h
    rw [List.foldl_cons] at h
    obtain ⟨hstep, htail⟩ := ih (vpaMaxStep acc it) h
    rcases hv : it.videoPublishedAt with _ | vpa
    · have : vpaMaxStep acc it = acc := by simp [vpaMaxStep, hv]
      rw [this] at hstep
      refine ⟨hstep, ?_⟩
      intro it' hit'
      rcases List.mem_cons.mp hit' with rfl | hit'
      · exact hv
      · exact htail it' hit'
    · exfalso
      rcases ha : acc with _ | m
      · rw [show vpaMaxStep acc it = some vpa from by simp [vpaMaxStep, hv, ha]] at hstep
        cases hstep
      · by_cases hlt : m < vpa
        · rw [show vpaMaxStep acc it = some vpa from by simp [vpaMaxStep, hv, ha, hlt]] at hstep
          cases hstep
        · rw [show vpaMaxStep acc it = some m from by simp [vpaMaxStep, hv, ha, hlt]] at hstep
          cases hstep

theorem foldl_pages_vpa_spec (L : List UploadsPage) :
    ∀ (acc : Option ℤ) (t : ℤ),
      L.foldl (fun a p => p.items.foldl vpaMaxStep a) acc = some t →
      (acc = some t ∨ ∃ p ∈ L, ∃ it ∈ p.items, it.videoPublishedAt = some t) ∧
      (∀ u, acc = some u → u ≤ t) ∧
      (∀ p ∈ L, ∀ it ∈ p.items, ∀ u, it.videoPublishedAt = some u → u ≤ t) := by
  induction L with
  | nil =>
    intro acc t h
    simp only [List.foldl_nil] at h
    refine ⟨Or.inl h, ?_, ?_⟩
    · intro u hu
      rw [h] at hu
      cases hu
      exact le_refl t
    · intro p hp
      cases hp
  | cons p L ih =>
    intro acc t h
    rw [List.foldl_cons] at h
    obtain ⟨h1, h2, h3⟩ := ih (p.items.foldl vpaMaxStep acc) t h
    rcases ha' : p.items.foldl vpaMaxStep acc with _ | s
    · obtain ⟨hacc, hall⟩ := foldl_vpaMaxStep_none p.items acc ha'
      rw [ha'] at h1 h2
      refine ⟨?_, ?_, ?_⟩
      · rcases h1 with h1 | ⟨q, hq, hrest⟩
        · cases h1
        · exact Or.inr ⟨q, List.mem_cons_of_mem _ hq, hrest⟩
      · intro u hu
        rw [hacc] at hu
        cases hu
      · intro p' hp' it hit u hu
        rcases List.mem_cons.mp hp' with rfl | hp'
        · rw [hall it hit] at hu
          cases hu
        · exact h3 p' hp' it hit u hu
    · obtain ⟨g1, g2, g3⟩ := foldl_vpaMaxStep_spec p.items acc s ha'
      rw [ha'] at h1 h2
      have hs_le : s ≤ t := h2 s rfl
      refine ⟨?_, ?_, ?_⟩
      · rcases h1 with h1 | ⟨q, hq, hrest⟩
        · cases h1
          rcases g1 with g1 | ⟨it, hit, hv⟩
          · exact Or.inl g1
          · exact Or.inr ⟨p, List.mem_cons_self p L, it, hit, hv⟩
        · exact Or.inr ⟨q, List.mem_cons_of_mem _ hq, hrest⟩
      · intro u hu
        exact le_trans (g2 u hu) hs_le
      · intro p' hp' it hit u hu
        rcases List.mem_cons.mp hp' with rfl | hp'
        · exact le_trans (g3 it hit u hu) hs_le
        · exact h3 p' hp' it hit u hu

/-- The channel row of the C3 counterexample: watermark at 1000000 ms. -/
def chanC3 : ChannelRow :=
  { id := "c3", uploadsPlaylistId := some "PL1", lastVideoPublishedAt := some 1000000 }

/-- The uploads playlist now only holds one video published at 500 ms. -/
def pagesC3 : List UploadsPage :=
  [{ items := [{ videoId := some "v9", videoPublishedAt := some 500 }], nextPageToken := false }]

/-- C3 counterexample: the effective lower bound is watermark minus 5
minutes; the run observes only a video published at 500, finishes done,
and overwrites the watermark with 500 — strictly below its previous value
1000000, refuting that the watermark is unchanged or strictly greater
after every successful pass. -/
theorem claim_C3_counterexample :
    computePublishedAfter (some chanC3) none 0 = Sum.inr 700000 ∧
    listUploadsSince pagesC3 700000 none =
      { videoIds := [], mostRecentPublishedAt := some 500, pagesFetched := 1 } ∧
    ingestOneChannel (some chanC3) (Except.ok (listUploadsSince pagesC3 700000 none)) 42 =
      some { id := "c3", uploadsPlaylistId := some "PL1", lastVideoPublishedAt := some 500,
             lastIngestAt := some 42, scrapeStatus := .done, scrapeError := none } ∧
    chanC3.lastVideoPublishedAt = some 1000000 ∧ (500 : ℤ) < 1000000 := by
  refine ⟨rfl, by decide, by decide, rfl, by decide⟩

/-- C3 (amended): the mostRecent value of a listing run is exactly the
vpaMaxStep fold over the pages actually fetched — when it is some t, t is
the publish time of an observed item and no observed publish time exceeds
t; a successful per-channel pass sets the watermark to that value when
present (which may be lower than the previous watermark) and keeps the old
one when absent; when the listing throws, neither the watermark nor
lastIngestAt changes. -/
theorem claim_C3_watermark :
    (∀ (pages : List UploadsPage) (after : ℤ) (maxV : Option ℕ),
      (listUploadsSince pages after maxV).mostRecentPublishedAt =
        observedMax pages (listUploadsSince pages after maxV).pagesFetched) ∧
    (∀ (pages : List UploadsPage) (after : ℤ) (maxV : Option ℕ) (t : ℤ),
      (listUploadsSince pages after maxV).mostRecentPublishedAt = some t →
      (∃ p ∈ pages.take (listUploadsSince pages after maxV).pagesFetched,
        ∃ it ∈ p.items, it.videoPublishedAt = some t) ∧
      (∀ p ∈ pages.take (listUploadsSince pages after maxV).pagesFetched,
        ∀ it ∈ p.items, ∀ u, it.videoPublishedAt = some u → u ≤ t)) ∧
    (∀ (row : ChannelRow) (res : ListUploadsResult) (now : ℤ) (pid : String),
      row.uploadsPlaylistId = some pid → pid ≠ "" →
      ingestOneChannel (some row) (Except.ok res) now =
        some { row with
          scrapeStatus := .done
          scrapeError := none
          lastIngestAt := some now
          lastVideoPublishedAt :=
            match res.mostRecentPublishedAt with
            | some t => some t
            | none => row.lastVideoPublishedAt }) ∧
    (∀ (row : ChannelRow) (e : String) (now : ℤ),
      ∃ row', ingestOneChannel (some row) (Except.error e) now = some row' ∧
        row'.lastVideoPublishedAt = row.lastVideoPublishedAt ∧
        row'.lastIngestAt = row.lastIngestAt) := by
  refine ⟨?_, ?_, ?_, ?_⟩
  · intro pages after maxV
    exact listUploadsSince_mostRecent pages after maxV
  · intro pages after maxV t ht
    rw [listUploadsSince_mostRecent] at ht
    obtain ⟨h1, _, h3⟩ := foldl_pages_vpa_spec
      (pages.take (listUploadsSince pages after maxV).pagesFetched) none t ht
    refine ⟨?_, h3⟩
    rcases h1 with h1 | h1
    · cases h1
    · exact h1
  · intro row res now pid hp hpe
    simp [ingestOneChannel, hp, hpe]
  · intro row e now
    rcases hp : row.uploadsPlaylistId with _ | pid
    · exact ⟨{ row with scrapeStatus := .running, scrapeError := none },
        by simp [ingestOneChannel, hp], rfl, rfl⟩
    · by_cases hpe : pid = ""
      · subst hpe
        exact ⟨{ row with scrapeStatus := .running, scrapeError := none },
          by simp [ingestOneChannel, hp], rfl, rfl⟩
      · exact ⟨{ row with scrapeStatus := .error, scrapeError := some e },
          by simp [ingestOneChannel, hp, hpe], rfl, rfl⟩

/-- Witness for C3 at a concrete run: the single observed publish time 500
is the mostRecent value, and the error path keeps the watermark. -/
theorem claim_C3_witness :
    (listUploadsSince pagesC3 700000 none).mostRecentPublishedAt =
      observedMax pagesC3 (listUploadsSince pagesC3 700000 none).pagesFetched ∧
    ∃ row', ingestOneChannel (some chanC3) (Except.error "boom") 7 = some row' ∧
      row'.lastVideoPublishedAt = chanC3.lastVideoPublishedAt ∧
      row'.lastIngestAt = chanC3.lastIngestAt :=
  ⟨claim_C3_watermark.1 pagesC3 700000 none,
   claim_C3_watermark.2.2.2 chanC3 "boom" 7⟩

/-! ## Claim C8 -/

/-- Classification of one handle as a not-found outcome. -/
def notFoundCase (env : DiscoverEnv) (h : String) : Bool :=
  match env.resolve h with
  | .noItem => true
  | .found cid => decide (cid = "")
  | .throwErr _ => false

/-- Classification of one handle as an error outcome, with its record. -/
def errorCase (env : DiscoverEnv) (h : String) : Option (String × String) :=
  match env.resolve h with
  | .throwErr m => some (h, m)
  | .noItem => none
  | .found cid =>
    if cid = "" then none
    else
      match env.upsertErr h with
      | some m => some (h, m)
      | none => none

/-- Classification of one handle as a resolved mapping, with its record. -/
def mappingCase (env : DiscoverEnv) (h : String) : Option (String × String) :=
  match env.resolve h with
  | .found cid =>
    if cid = "" then none
    else
      match env.upsertErr h with
      | none => some (h, cid)
      | some _ => none
  | _ => none

theorem discover_foldl (env : DiscoverEnv) :
    ∀ (input : List String) (acc : DiscoverAcc),
      (input.foldl (discoverStep env) acc).notFound =
        acc.notFound ++ input.filter (notFoundCase env) ∧
      (input.foldl (discoverStep env) acc).errors =
        acc.errors ++ input.filterMap (errorCase env) ∧
      (input.foldl (discoverStep env) acc).mappings =
        acc.mappings ++ input.filterMap (mappingCase env) ∧
      (input.foldl (discoverStep env) acc).upserts =
        acc.upserts + (input.filterMap (mappingCase env)).length := by
  intro input
  induction input with
  | nil => intro acc; simp
  | cons h l ih =>
    intro acc
    have hstep := ih (discoverStep env acc h)
    rcases hr : env.resolve h with m | _ | cid
    · simpa [discoverStep, notFoundCase, errorCase, mappingCase, hr, List.filter_cons,
        List.filterMap_cons, List.append_assoc] using hstep
    · simpa [discoverStep, notFoundCase, errorCase, mappingCase, hr, List.filter_cons,
        List.filterMap_cons, List.append_assoc] using hstep
    · by_cases hc : cid = ""
      · simpa [discoverStep, notFoundCase, errorCase, mappingCase, hr, hc, List.filter_cons,
          List.filterMap_cons, List.append_assoc] using hstep
      · rcases hu : env.upsertErr h with _ | m
        · simpa [discoverStep, notFoundCase, errorCase, mappingCase, hr, hc, hu,
            List.filter_cons, List.filterMap_cons, List.append_assoc, Nat.add_assoc,
            Nat.add_comm 1] using hstep
        · simpa [discoverStep, notFoundCase, errorCase, mappingCase, hr, hc, hu,
            List.filter_cons, List.filterMap_cons, List.append_assoc] using hstep

theorem discover_counts (env : DiscoverEnv) (input : List String) :
    (input.filter (notFoundCase env)).length + (input.filterMap (errorCase env)).length +
      (input.filterMap (mappingCase env)).length = input.length := by
  induction input with
  | nil => rfl
  | cons h l ih =>
    rcases hr : env.resolve h with m | _ | cid
    · simp [List.filter_cons, List.filterMap_cons, notFoundCase, errorCase, mappingCase, hr]
      omega
    · simp [List.filter_cons, List.filterMap_cons, notFoundCase, errorCase, mappingCase, hr]
      omega
    · by_cases hc : cid = ""
      · simp [List.filter_cons, List.filterMap_cons, notFoundCase, errorCase, mappingCase,
          hr, hc]
        omega
      · rcases hu : env.upsertErr h with _ | m
        · simp [List.filter_cons, List.filterMap_cons, notFoundCase, errorCase, mappingCase,
            hr, hc, hu]
          omega
        · simp [List.filter_cons, List.filterMap_cons, notFoundCase, errorCase, mappingCase,
            hr, hc, hu]
          omega

/-- The environment of the C8 scenario: the handle at-foo resolves and
upserts, everything else is not found. -/
def envFooBar : DiscoverEnv :=
  { resolve := fun h => if h = "@foo" then .found "UCfoo" else .noItem,
    upsertErr := fun _ => none }

/-- C8: discoverFromHandles returns a summary for every environment (every
per-handle failure, of resolution or of upsert, is data of the summary,
never a throw): processed counts the deduplicated normalized handles,
every deduplicated handle lands in exactly one of notFound / errors /
mappings, resolved and upserts count the mappings; and discovering
at-foo plus bar where only at-foo resolves reports processed 2,
resolved 1, notFound [at-bar], upserts 1, no errors. -/
theorem claim_C8_discover :
    (∀ (env : DiscoverEnv) (handles : List String),
      (discoverFromHandles env handles).handlesProcessed = (discoverInput handles).length ∧
      (discoverFromHandles env handles).notFound =
        (discoverInput handles).filter (notFoundCase env) ∧
      (discoverFromHandles env handles).errors =
        (discoverInput handles).filterMap (errorCase env) ∧
      (discoverFromHandles env handles).mappings =
        (discoverInput handles).filterMap (mappingCase env) ∧
      (discoverFromHandles env handles).resolved =
        (discoverFromHandles env handles).mappings.length ∧
      (discoverFromHandles env handles).upserts =
        (discoverFromHandles env handles).mappings.length ∧
      (discoverFromHandles env handles).notFound.length +
        (discoverFromHandles env handles).errors.length +
        (discoverFromHandles env handles).mappings.length =
        (discoverFromHandles env handles).handlesProcessed) ∧
    discoverFromHandles envFooBar ["@foo", "bar"] =
      { handlesProcessed := 2, resolved := 1, notFound := ["@bar"], upserts := 1,
        errors := [], mappings := [("@foo", "UCfoo")] } := by
  constructor
  · intro env handles
    obtain ⟨hnf, herr, hmap, hup⟩ := discover_foldl env (discoverInput handles) {}
    have hs : discoverFromHandles env handles =
        { handlesProcessed := (discoverInput handles).length
          resolved := ((discoverInput handles).foldl (discoverStep env) {}).mappings.length
          notFound := ((discoverInput handles).foldl (discoverStep env) {}).notFound
          upserts := ((discoverInput handles).foldl (discoverStep env) {}).upserts
          errors := ((discoverInput handles).foldl (discoverStep env) {}).errors
          mappings := ((discoverInput handles).foldl (discoverStep env) {}).mappings } := rfl
    rw [hs]
    refine ⟨rfl, ?_, ?_, ?_, rfl, ?_, ?_⟩
    · simpa using hnf
    · simpa using herr
    · simpa using hmap
    · rw [hup, hmap]
      simp
    · rw [hnf, herr, hmap]
      simp only [List.nil_append]
      exact discover_counts env (discoverInput handles)
  · decide

/-! ## Claim C1 -/

/-- A channel row with no stored uploads pointer, idle before the pass. -/
def chanNoUploads : ChannelRow :=
  { id := "c1" }

/-- C1 counterexample: the row exists and the per-channel processing
completes (the skip path for a missing uploads pointer), yet the channel
is left with scrapeStatus running — neither done/error nor its prior idle
status. -/
theorem claim_C1_counterexample :
    ingestOneChannel (some chanNoUploads) (Except.ok ⟨[], none, 1⟩) 0 =
      some { id := "c1", uploadsPlaylistId := none, lastVideoPublishedAt := none,
             lastIngestAt := none, scrapeStatus := .running, scrapeError := none } ∧
    chanNoUploads.scrapeStatus = .idle := by
  exact ⟨rfl, rfl⟩

/-- C1 (amended): a channel whose row exists and that is not skipped (its
uploads pointer is present and nonempty) always ends in done (listing
succeeded) or error (listing threw, with the cause recorded); a skipped
channel is left in running with scrapeError cleared — not in its prior
status — and its markers untouched. -/
theorem claim_C1_ingest_status (row : ChannelRow)
    (listing : Except String ListUploadsResult) (now : ℤ) :
    ∃ row', ingestOneChannel (some row) listing now = some row' ∧
      ((∃ pid, row.uploadsPlaylistId = some pid ∧ pid ≠ "") →
        (row'.scrapeStatus = .done ∨ row'.scrapeStatus = .error) ∧
        (∀ res, listing = .ok res → row'.scrapeStatus = .done) ∧
        (∀ e, listing = .error e → row'.scrapeStatus = .error ∧ row'.scrapeError = some e)) ∧
      ((row.uploadsPlaylistId = none ∨ row.uploadsPlaylistId = some "") →
        row'.scrapeStatus = .running ∧ row'.scrapeError = none ∧
        row'.lastVideoPublishedAt = row.lastVideoPublishedAt ∧
        row'.lastIngestAt = row.lastIngestAt ∧ row'.id = row.id) := by
  rcases hp : row.uploadsPlaylistId with _ | pid
  · refine ⟨{ row with scrapeStatus := .running, scrapeError := none }, ?_, ?_, ?_⟩
    · simp [ingestOneChannel, hp]
    · rintro ⟨pid, hpid, -⟩
      cases hpid
    · intro _
      exact ⟨rfl, rfl, rfl, rfl, rfl⟩
  · by_cases hpe : pid = ""
    · subst hpe
      refine ⟨{ row with scrapeStatus := .running, scrapeError := none }, ?_, ?_, ?_⟩
      · simp [ingestOneChannel, hp]
      · rintro ⟨q, hq, hne⟩
        cases hq
        exact absurd rfl hne
      · intro _
        exact ⟨rfl, rfl, rfl, rfl, rfl⟩
    · cases listing with
      | error e =>
        refine ⟨{ row with scrapeStatus := .error, scrapeError := some e }, ?_, ?_, ?_⟩
        · simp [ingestOneChannel, hp, hpe]
        · intro _
          refine ⟨Or.inr rfl, ?_, ?_⟩
          · intro res hres
            cases hres
          · intro e' he
            cases he
            exact ⟨rfl, rfl⟩
        · rintro (hq | hq)
          · cases hq
          · cases hq
            exact absurd rfl hpe
      | ok res =>
        refine ⟨{ row with
          scrapeStatus := .done
          scrapeError := none
          lastIngestAt := some now
          lastVideoPublishedAt :=
            match res.mostRecentPublishedAt with
            | some t => some t
            | none => row.lastVideoPublishedAt }, ?_, ?_, ?_⟩
        · simp [ingestOneChannel, hp, hpe]
        · intro _
          refine ⟨Or.inl rfl, ?_, ?_⟩
          · intro res' hres
            cases hres
            rfl
          · intro e' he
            cases he
        · rintro (hq | hq)
          · cases hq
          · cases hq
            exact absurd rfl hpe

/-- A channel row with a present, nonempty uploads pointer. -/
def chanWithUploads : ChannelRow :=
  { id := "c2", uploadsPlaylistId := some "PL2" }

/-- Witness for C1: a present, nonempty uploads pointer with a successful
listing ends in done. -/
theorem claim_C1_witness :
    ∃ row', ingestOneChannel (some chanWithUploads) (Except.ok ⟨[], none, 1⟩) 0 = some row' ∧
      (row'.scrapeStatus = .done ∨ row'.scrapeStatus = .error) := by
  obtain ⟨row', heq, hok, -⟩ :=
    claim_C1_ingest_status chanWithUploads (Except.ok ⟨[], none, 1⟩) 0
  exact ⟨row', heq, (hok ⟨"PL2", rfl, by decide⟩).1⟩

/-- **C5**: the enrichment worker pages through the eligible videos with a
keyset cursor.  Every fetched page is the sorted eligible selection at the
current cursor: it holds at most pageSize rows, ordered by
(publishedAt, videoId) ascending; every row on it is a stored row that
passes the eligibility filter and lies strictly past the cursor; the cursor
then advances to the (publishedAt, videoId) key of the last row of the
page; and the loop stops exactly when a page comes back empty.  Illustrated
on a concrete three-row table paged two rows at a time: the run fetches
the pages [v1, v2] then [v3] and stops. -/
theorem claim_C5_pagination :
    (∀ (db : List VideoRow) (thumbs : List String) (now sd : ℤ) (ps : ℕ)
        (c : Option (ℤ × String)),
        TraceOk db thumbs now sd ps c (runEnrichTrace db thumbs now sd ps c)) ∧
    runEnrichTrace [vidT2, vidT1, vidT3] [] 3 1 2 none =
      [([vidT1, vidT2], (2, "v2")), ([vidT3], (3, "v3"))] := by
  constructor
  · intro db thumbs now sd ps c
    exact traceOk_runEnrichTrace db thumbs now sd ps c
  · have he1 : eligibleBase [] 3 1 vidT1 = true := by norm_num [eligibleBase, vidT1, msPerDay]
    have he2 : eligibleBase [] 3 1 vidT2 = true := by norm_num [eligibleBase, vidT2, msPerDay]
    have he3 : eligibleBase [] 3 1 vidT3 = true := by norm_num [eligibleBase, vidT3, msPerDay]
    have r13 : rowLe vidT1 vidT3 = true := by norm_num [rowLe, vidT1, vidT3]
    have r21 : rowLe vidT2 vidT1 = false := by norm_num [rowLe, vidT2, vidT1]
    have r23 : rowLe vidT2 vidT3 = true := by norm_num [rowLe, vidT2, vidT3]
    have hs1 : selectEligiblePage [vidT2, vidT1, vidT3] [] 3 1 2 none = [vidT1, vidT2] := by
      simp [selectEligiblePage, cursorOk, he1, he2, he3, orderBy, insertPos, r13, r21, r23]
    have c21 : cursorOk (some (2, "v2")) vidT1 = false := by simp [cursorOk, vidT1]
    have c22 : cursorOk (some (2, "v2")) vidT2 = false := by simp [cursorOk, vidT2]
    have c23 : cursorOk (some (2, "v2")) vidT3 = true := by simp [cursorOk, vidT3]
    have hs2 : selectEligiblePage [vidT2, vidT1, vidT3] [] 3 1 2 (some (2, "v2")) = [vidT3] := by
      simp [selectEligiblePage, he1, he2, he3, c21, c22, c23, orderBy, insertPos]
    have d21 : cursorOk (some (3, "v3")) vidT1 = false := by simp [cursorOk, vidT1]
    have d22 : cursorOk (some (3, "v3")) vidT2 = false := by simp [cursorOk, vidT2]
    have d23 : cursorOk (some (3, "v3")) vidT3 = false := by simp [cursorOk, vidT3]
    have hs3 : selectEligiblePage [vidT2, vidT1, vidT3] [] 3 1 2 (some (3, "v3")) = [] := by
      simp [selectEligiblePage, d21, d22, d23, orderBy]
    have t1 := runEnrichTrace_cons [vidT2, vidT1, vidT3] [] 3 1 2 none vidT2 (by rw [hs1]; rfl)
    have t2 := runEnrichTrace_cons [vidT2, vidT1, vidT3] [] 3 1 2 (some (2, "v2")) vidT3
      (by rw [hs2]; rfl)
    have t3 := runEnrichTrace_nil [vidT2, vidT1, vidT3] [] 3 1 2 (some (3, "v3")) hs3
    have k2 : rowKey vidT2 = (2, "v2") := rfl
    have k3 : rowKey vidT3 = (3, "v3") := rfl
    rw [t1, hs1, k2, t2, hs2, k3, t3]

end YTI
